import Mathlib

/-!
Verification of a depth-first state-space exploration engine instantiated four
ways: single-result DFS over a weighted graph, backtracking longest-ascending-
path search over a character grid, in-place flood fill, and prefix-pruned word
search.  Each Python function is embedded as an executable Lean definition;
theorems below settle the specification's claims about them.
-/

/-! ## Strategy B: backtracking longest-path DFS (`find_longest_path.py`) -/

/-- A character grid (`matrix` in the source): a list of rows. -/
abbrev Grid := List (List Char)

/-- `len(matrix)`. -/
def rowsOf (m : Grid) : Nat := m.length

/-- `len(matrix[0])`. -/
def colsOf (m : Grid) : Nat := (m.headD []).length

/-- `matrix[r][c]` for indices that the caller has bounds-checked.
Out-of-range indices yield a junk default, matching the fact that the source
only evaluates this access behind `0 <= r < rows and 0 <= c < cols`. -/
def cellM (m : Grid) (r c : Int) : Char := (m.getD r.toNat []).getD c.toNat ' '

/-- `product([-1, 0, 1], repeat=2)` in source order. -/
def deltas : List (Int × Int) :=
  [(-1,-1), (-1,0), (-1,1), (0,-1), (0,0), (0,1), (1,-1), (1,0), (1,1)]

/-- `MatrixPathProblem.actions`: the moves `(dr, dc)` that stay on the board
and land on the character exactly one code point above the current one. -/
def actionsB (m : Grid) (s : Int × Int) : List (Int × Int) :=
  deltas.filter (fun d => decide (
    ¬(d.1 = 0 ∧ d.2 = 0)
    ∧ 0 ≤ s.1 + d.1 ∧ s.1 + d.1 < (rowsOf m : Int)
    ∧ 0 ≤ s.2 + d.2 ∧ s.2 + d.2 < (colsOf m : Int)
    ∧ (cellM m (s.1 + d.1) (s.2 + d.2)).toNat = (cellM m s.1 s.2).toNat + 1))

/-- `MatrixPathProblem.result`. -/
def resultB (s a : Int × Int) : Int × Int := (s.1 + a.1, s.2 + a.2)

/-- `MatrixPathProblem.find_start_positions`: all coordinates holding the
start character, in row-major order. -/
def findStartPositions (m : Grid) (sc : Char) : List (Int × Int) :=
  (((List.range (rowsOf m)).map (fun (r : Nat) =>
      (List.range (colsOf m)).map (fun (c : Nat) => ((r : Int), (c : Int))))).flatten).filter
    (fun p => decide (cellM m p.1 p.2 = sc))

/-- `recursive_dfs(node, visited)` of `find_longest_path.depth_first_search`:
add the current cell to the per-branch visited set, take the best result over
unvisited ascending neighbours, and return one more than that.  The `fuel`
argument is a Lean totality device; the top-level call supplies fuel larger
than any simple path, so the `0` branch is never reached there. -/
def recDFSB (m : Grid) : Nat → List (Int × Int) → Int × Int → Nat
  | 0, _, _ => 0
  | fuel + 1, visited, s =>
    let visited' := s :: visited
    1 + ((actionsB m s).map (resultB s)).foldl
      (fun acc c => if c ∉ visited' then max acc (recDFSB m fuel visited' c) else acc) 0

/-- `find_longest_path.depth_first_search`: the maximum of the recursive
search over every start position, starting from 0. -/
def dfsB (m : Grid) (sc : Char) : Nat :=
  (findStartPositions m sc).foldl
    (fun acc p => max acc (recDFSB m (rowsOf m * colsOf m + 1) [] p)) 0

/-! ### Specification layer for Strategy B -/

/-- A coordinate lies in the window `[0, rows) × [0, cols)`. -/
def inWin (m : Grid) (p : Int × Int) : Prop :=
  0 ≤ p.1 ∧ p.1 < (rowsOf m : Int) ∧ 0 ≤ p.2 ∧ p.2 < (colsOf m : Int)

instance (m : Grid) (p : Int × Int) : Decidable (inWin m p) := by
  unfold inWin; infer_instance

/-- One legal step of the ascending-path search: an 8-neighbour move landing
in bounds on the character exactly one code point above the current one. -/
def AscStep (m : Grid) (p q : Int × Int) : Prop :=
  (q.1 - p.1, q.2 - p.2) ∈ deltas ∧ ¬(q.1 - p.1 = 0 ∧ q.2 - p.2 = 0)
    ∧ inWin m q ∧ (cellM m q.1 q.2).toNat = (cellM m p.1 p.2).toNat + 1

/-- A valid ascending simple path: nonempty, duplicate-free, in bounds, with
each consecutive pair related by `AscStep`. -/
def AscPath (m : Grid) (l : List (Int × Int)) : Prop :=
  l ≠ [] ∧ l.Nodup ∧ List.Chain' (AscStep m) l ∧ ∀ p ∈ l, inWin m p

/-- The finite set of window coordinates, used to bound simple-path lengths. -/
def winFinset (m : Grid) : Finset (Int × Int) :=
  (Finset.range (rowsOf m) ×ˢ Finset.range (colsOf m)).image
    (fun rc => ((rc.1 : Int), (rc.2 : Int)))

/-! ## Strategy C: in-place flood fill (`flood_fill.py`) -/

/-- Python list indexing `xs[i]`: non-negative indices address from the
front, negative indices no smaller than `-len(xs)` address from the back,
and any other index raises `IndexError`, modelled as `none`. -/
def pyIdx {α : Type} (xs : List α) (i : Int) : Option α :=
  if 0 ≤ i then xs[i.toNat]?
  else if i + xs.length < 0 then none
  else xs[(i + xs.length).toNat]?

/-- The unguarded read `self.matrix[start_x][start_y]` performed by `fill`
before any bounds check. -/
def pyIdx2 (g : Grid) (x y : Int) : Option Char :=
  (pyIdx g x).bind (fun row => pyIdx row y)

/-- `FloodFillProblem.is_valid`: the node is inside the matrix and has the
target colour.  The cell is read only after both bounds checks pass. -/
def isValidFF (g : Grid) (tc : Char) (x y : Int) : Prop :=
  0 ≤ x ∧ x < (rowsOf g : Int) ∧ 0 ≤ y ∧ y < (colsOf g : Int) ∧ cellM g x y = tc

instance (g : Grid) (tc : Char) (x y : Int) : Decidable (isValidFF g tc x y) := by
  unfold isValidFF; infer_instance

/-- One cell write `self.matrix[x][y] = replacement_color`. -/
def setCell (g : Grid) (x y : Int) (c : Char) : Grid :=
  g.set x.toNat ((g.getD x.toNat []).set y.toNat c)

/-- The recursive `dfs` inside `FloodFillProblem.fill`: recolour the cell if
valid, then recurse into the four axis-aligned neighbours in source order.
`fuel` bounds the recursion depth; `none` models a run that exhausts every
finite depth (the Python recursion never returning). -/
def dfsFF (tc rc : Char) : Nat → Grid → Int → Int → Option Grid
  | 0, _, _, _ => none
  | fuel + 1, g, x, y =>
    if isValidFF g tc x y then
      let g1 := setCell g x y rc
      (dfsFF tc rc fuel g1 (x - 1) y).bind (fun g2 =>
        (dfsFF tc rc fuel g2 (x + 1) y).bind (fun g3 =>
          (dfsFF tc rc fuel g3 x (y - 1)).bind (fun g4 =>
            dfsFF tc rc fuel g4 x (y + 1))))
    else some g

/-- `FloodFillProblem.fill`: read the start cell (unguarded — `none` models
the `IndexError` this raises when the start coordinate is far out of
bounds), return unchanged if it already holds the replacement colour, and
otherwise run the recursive walk.  The fuel `rows*cols + 2` is proved
sufficient whenever the walk terminates. -/
def fillFF (g : Grid) (sx sy : Int) (tc rc : Char) : Option Grid :=
  match pyIdx2 g sx sy with
  | none => none
  | some v =>
    if v = rc then some g else dfsFF tc rc (rowsOf g * colsOf g + 2) g sx sy

/-- The coordinates at which the recursive walk reads or writes a cell, in
evaluation order: `is_valid` reads `(x, y)` once both bounds checks pass,
and a write at `(x, y)` follows when the colour matches. -/
def dfsFFAcc (tc rc : Char) : Nat → Grid → Int → Int → List (Int × Int)
  | 0, _, _, _ => []
  | fuel + 1, g, x, y =>
    if 0 ≤ x ∧ x < (rowsOf g : Int) ∧ 0 ≤ y ∧ y < (colsOf g : Int) then
      if cellM g x y = tc then
        let g1 := setCell g x y rc
        let g2 := (dfsFF tc rc fuel g1 (x - 1) y).getD g1
        let g3 := (dfsFF tc rc fuel g2 (x + 1) y).getD g2
        let g4 := (dfsFF tc rc fuel g3 x (y - 1)).getD g3
        (x, y) :: (x, y) ::
          (dfsFFAcc tc rc fuel g1 (x - 1) y ++ dfsFFAcc tc rc fuel g2 (x + 1) y ++
            dfsFFAcc tc rc fuel g3 x (y - 1) ++ dfsFFAcc tc rc fuel g4 x (y + 1))
      else [(x, y)]
    else []

/-- Every cell access `fill` makes: the unguarded start-cell read of the
guard step, then the traversal's accesses. -/
def fillFFAcc (g : Grid) (sx sy : Int) (tc rc : Char) : List (Int × Int) :=
  (sx, sy) ::
    (match pyIdx2 g sx sy with
     | none => []
     | some v =>
       if v = rc then [] else dfsFFAcc tc rc (rowsOf g * colsOf g + 2) g sx sy)

/-! ### Specification layer for the flood fill -/

/-- A rectangular grid: every row has the length of the first one. -/
def Rect (g : Grid) : Prop := ∀ row ∈ g, row.length = colsOf g

instance (g : Grid) : Decidable (Rect g) := by
  unfold Rect
  exact List.decidableBAll _ g

/-- 4-adjacency, the neighbour offsets of the source in order. -/
def adj4 (p q : Int × Int) : Prop :=
  (q.1 - p.1, q.2 - p.2) ∈ ([(-1, 0), (1, 0), (0, -1), (0, 1)] : List (Int × Int))

/-- The 4-connected region of cells reachable from `s` through cells that
hold the target colour in `g` (including `s` itself when it does). -/
inductive RegionFF (g : Grid) (tc : Char) (s : Int × Int) : Int × Int → Prop
  | base : inWin g s → cellM g s.1 s.2 = tc → RegionFF g tc s s
  | step (p q : Int × Int) : RegionFF g tc s p → adj4 p q → inWin g q →
      cellM g q.1 q.2 = tc → RegionFF g tc s q

/-- Window positions as a duplicate-free list. -/
def winList (g : Grid) : List (Int × Int) :=
  ((List.range (rowsOf g)) ×ˢ (List.range (colsOf g))).map
    (fun rc => ((rc.1 : Int), (rc.2 : Int)))

/-- The number of target-coloured window cells: the termination measure of
the recursive fill. -/
def colorCount (g : Grid) (tc : Char) : Nat :=
  (winList g).countP (fun p => decide (cellM g p.1 p.2 = tc))

/-- Soundness invariant of the walk: relative to the original grid `g0`,
every window cell of the current grid is either untouched or a region cell
recoloured to the replacement colour. -/
def FillInv (g0 : Grid) (tc rc : Char) (s : Int × Int) (g : Grid) : Prop :=
  ∀ p : Int × Int, inWin g0 p →
    cellM g p.1 p.2 = cellM g0 p.1 p.2 ∨
      (RegionFF g0 tc s p ∧ cellM g p.1 p.2 = rc)

/-! ## Strategy A: single-result DFS (`DFS.py`) -/

/-- The `Problem` contract of `DFS.py` for a graph search: a single initial
state, an ordered action list per state, a deterministic transition, a step
cost, and a goal test. -/
structure GProblem (σ α : Type) where
  initial : σ
  actions : σ → List α
  result : σ → α → σ
  action_cost : σ → α → σ → Int
  is_goal : σ → Bool

/-- The search `Node`: state, parent reference, the action that produced it
and the accumulated path cost (`path_cost = 0` and no parent at the root). -/
inductive SNode (σ α : Type) where
  | root (state : σ)
  | child (state : σ) (parent : SNode σ α) (action : α) (path_cost : Int)
deriving DecidableEq

def SNode.state {σ α : Type} : SNode σ α → σ
  | .root s => s
  | .child s _ _ _ => s

def SNode.path_cost {σ α : Type} : SNode σ α → Int
  | .root _ => 0
  | .child _ _ _ c => c

/-- `path_states(node)`: the states from the root to this node, by walking
the parent chain. -/
def pathStates {σ α : Type} : SNode σ α → List σ
  | .root s => [s]
  | .child s p _ _ => pathStates p ++ [s]

/-- `expand(problem, node)`: one child per action, in action order, with
`path_cost` increased by `action_cost(s, action, s1)`. -/
def expand {σ α : Type} (p : GProblem σ α) (n : SNode σ α) : List (SNode σ α) :=
  (p.actions n.state).map (fun a =>
    SNode.child (p.result n.state a) n a
      (n.path_cost + p.action_cost n.state a (p.result n.state a)))

/-- Outcome of one iteration of the DFS loop. -/
inductive StepRes (σ α : Type) where
  | halt (res : Option (List σ × Int)) (explored : List σ)
  | next (frontier : List (SNode σ α)) (explored : List σ)

/-- One iteration of the `while frontier` loop of `depth_first_search`.
The frontier's top is the head of the list (Python pops and appends at the
list's end), so pushing the expansion's children appends them reversed:
the most recently pushed child is the new head. -/
def dfsAStep {σ α : Type} [DecidableEq σ] (p : GProblem σ α) :
    List (SNode σ α) → List σ → StepRes σ α
  | [], explored => .halt none explored
  | n :: rest, explored =>
    if n.state ∈ explored then .next rest explored
    else if p.is_goal n.state then
      .halt (some (pathStates n, n.path_cost)) (n.state :: explored)
    else .next ((expand p n).reverse ++ rest) (n.state :: explored)

/-- The DFS loop, with fuel as a Lean totality device (`none` = fuel ran
out); also returns the final explored list, most recent state first. -/
def dfsALoop {σ α : Type} [DecidableEq σ] (p : GProblem σ α) :
    Nat → List (SNode σ α) → List σ →
      Option (Option (List σ × Int)) × List σ
  | 0, _, explored => (none, explored)
  | fuel + 1, frontier, explored =>
    match dfsAStep p frontier explored with
    | .halt res explored' => (some res, explored')
    | .next frontier' explored' => dfsALoop p fuel frontier' explored'

/-- `DFS.depth_first_search`: seed the frontier with a root node for the
initial state and loop.  `some (some (path, cost))` is a found goal,
`some none` is the `(None, math.inf)` no-path sentinel. -/
def dfsA {σ α : Type} [DecidableEq σ] (p : GProblem σ α) (fuel : Nat) :
    Option (Option (List σ × Int)) :=
  (dfsALoop p fuel [SNode.root p.initial] []).1

/-- The states in the order the loop marked them explored. -/
def dfsAExplored {σ α : Type} [DecidableEq σ] (p : GProblem σ α) (fuel : Nat) :
    List σ :=
  (dfsALoop p fuel [SNode.root p.initial] []).2.reverse

/-! ### Specification layer for Strategy A -/

/-- A node whose parent chain is rooted at the initial state with stored
actions, transitions and costs all consistent with the problem. -/
def NodeOK {σ α : Type} (p : GProblem σ α) : SNode σ α → Prop
  | .root s => s = p.initial
  | .child s parent a c => NodeOK p parent ∧ a ∈ p.actions parent.state ∧
      s = p.result parent.state a ∧
      c = parent.path_cost + p.action_cost parent.state a s

/-- A legal action/state step sequence starting from `s`. -/
def ChainOK {σ α : Type} (p : GProblem σ α) : σ → List (α × σ) → Prop
  | _, [] => True
  | s, (a, s') :: rest => a ∈ p.actions s ∧ s' = p.result s a ∧ ChainOK p s' rest

/-- The summed action cost of a step sequence starting from `s`. -/
def ChainCost {σ α : Type} (p : GProblem σ α) : σ → List (α × σ) → Int
  | _, [] => 0
  | s, (a, s') :: rest => p.action_cost s a s' + ChainCost p s' rest

/-- The last state of a step sequence starting from `s0`. -/
def lastState {σ α : Type} (s0 : σ) (steps : List (α × σ)) : σ :=
  match steps.getLast? with
  | none => s0
  | some (_, s) => s

/-- Termination measure of the DFS loop over a closed finite universe `U`:
frontier size plus the pending expansion work of unexplored states. -/
def phiA {σ α : Type} [DecidableEq σ] (p : GProblem σ α) (U : Finset σ)
    (frontier : List (SNode σ α)) (explored : List σ) : Nat :=
  frontier.length +
    ∑ s ∈ U.filter (fun s => s ∉ explored), (p.actions s).length

/-- A concrete four-state graph problem with no reachable goal: from 0 the
actions lead to 1 and 2 (in that order), from 2 to 3; `is_goal` is always
false.  Used to exhibit the DFS exploration order. -/
def exC2 : GProblem Nat Nat where
  initial := 0
  actions := fun s => if s = 0 then [1, 2] else if s = 2 then [3] else []
  result := fun _ a => a
  action_cost := fun _ _ _ => 1
  is_goal := fun _ => false

/-- A concrete two-state graph problem whose goal 1 is one step from the
initial state 0, with step cost 5. -/
def exProblemA : GProblem Nat Nat where
  initial := 0
  actions := fun s => if s = 0 then [1] else []
  result := fun _ a => a
  action_cost := fun _ _ _ => 5
  is_goal := fun s => s == 1

/-! ## Strategy D: prefix-pruned word search (`word_matrix.py`) -/

/-- The eight directions of `MatrixWordSearchProblem.actions`, in source
order. -/
def dirs8 : List (Int × Int) :=
  [(-1,-1), (-1,0), (-1,1), (0,-1), (0,1), (1,-1), (1,0), (1,1)]

/-- `is_valid_move(nx, ny, rows, cols, path)`: on the board and not yet on
the current path. -/
def is_valid_move (nx ny : Int) (rows cols : Nat)
    (path : List (Int × Int)) : Prop :=
  0 ≤ nx ∧ nx < (rows : Int) ∧ 0 ≤ ny ∧ ny < (cols : Int) ∧ (nx, ny) ∉ path

instance (nx ny : Int) (rows cols : Nat) (path : List (Int × Int)) :
    Decidable (is_valid_move nx ny rows cols path) := by
  unfold is_valid_move
  infer_instance

/-- A search state of the word search: `(x, y, path)` where `path` records
every visited coordinate in order, ending in `(x, y)`. -/
abbrev WState := Int × Int × List (Int × Int)

/-- `MatrixWordSearchProblem.actions`: the valid neighbour coordinates. -/
def actionsW (board : Grid) (st : WState) : List (Int × Int) :=
  dirs8.filterMap (fun d =>
    if is_valid_move (st.1 + d.1) (st.2.1 + d.2) (rowsOf board) (colsOf board)
        st.2.2 then
      some (st.1 + d.1, st.2.1 + d.2)
    else none)

/-- `MatrixWordSearchProblem.result`: move and extend the path. -/
def resultW (st : WState) (a : Int × Int) : WState :=
  (a.1, a.2, st.2.2 ++ [(a.1, a.2)])

/-- `"".join(board[i][j] for i, j in path)`, as a list of characters. -/
def wordOf (board : Grid) (path : List (Int × Int)) : List Char :=
  path.map (fun p => cellM board p.1 p.2)

/-- `_build_prefix_set`: every nonempty prefix `word[:i+1]` of every
dictionary word. -/
def buildPrefixSet (words : List (List Char)) : List (List Char) :=
  (words.map (fun w => (List.range w.length).map (fun i => w.take (i + 1)))).flatten

/-- The explicit-stack loop of `find_words_from`: pop a state, record its
word when it is in the dictionary, and push the successor states (stack top
at the head, so pushes are reversed) when the word is a live prefix.
`fuel` bounds the iteration count; the chosen fuel is proved sufficient. -/
def fwfLoop (board : Grid) (dict pset : List (List Char)) :
    Nat → List WState → List (List Char) → List (List Char)
  | 0, _, found => found
  | _ + 1, [], found => found
  | fuel + 1, st :: stack, found =>
    let w := wordOf board st.2.2
    let found' := if w ∈ dict then found.insert w else found
    if w ∈ pset then
      fwfLoop board dict pset fuel
        (((actionsW board st).map (resultW st)).reverse ++ stack) found'
    else fwfLoop board dict pset fuel stack found'

/-- The branching-bounded size of a search subtree whose path may still
grow `k` cells: the fuel bound for the loop. -/
def TW : Nat → Nat
  | 0 => 1
  | k + 1 => 1 + 8 * TW k

/-- The loop measure: the summed subtree bounds of the stack's states. -/
def measureW (N : Nat) (stack : List WState) : Nat :=
  (stack.map (fun st => TW (N + 1 - st.2.2.length))).sum

/-- `find_words_from(x, y)`. -/
def findWordsFrom (board : Grid) (dict : List (List Char)) (x y : Int) :
    List (List Char) :=
  fwfLoop board dict (buildPrefixSet dict)
    (TW (rowsOf board * colsOf board)) [(x, y, [(x, y)])] []

/-- The row-major list of board coordinates
(`product(range(rows), range(cols))`). -/
def rowMajor (g : Grid) : List (Int × Int) :=
  ((List.range (rowsOf g)).map (fun (r : Nat) =>
    (List.range (colsOf g)).map (fun (c : Nat) => ((r : Int), (c : Int))))).flatten

/-- `find_all_words`: accumulate the words found from every start
coordinate into one duplicate-free collection. -/
def findAllWords (board : Grid) (dict : List (List Char)) : List (List Char) :=
  (rowMajor board).foldl
    (fun acc p => (findWordsFrom board dict p.1 p.2).foldl
      (fun a w => a.insert w) acc) []

/-! ### Specification layer for the word search -/

/-- A non-self-intersecting 8-directional path on the board. -/
def TraceablePath (board : Grid) (l : List (Int × Int)) : Prop :=
  l ≠ [] ∧ l.Nodup ∧ (∀ p ∈ l, inWin board p) ∧
    List.Chain' (fun p q => (q.1 - p.1, q.2 - p.2) ∈ dirs8) l

/-- A word that can be traced as such a path. -/
def Traceable (board : Grid) (w : List Char) : Prop :=
  ∃ l, TraceablePath board l ∧ wordOf board l = w

/-- The loop invariant on a stack state: its path is a valid traceable path
ending at the state's coordinate. -/
def WSInv (board : Grid) (st : WState) : Prop :=
  st.2.2 ≠ [] ∧ st.2.2.Nodup ∧ (∀ p ∈ st.2.2, inWin board p) ∧
    List.Chain' (fun p q => (q.1 - p.1, q.2 - p.2) ∈ dirs8) st.2.2 ∧
    st.2.2.getLast? = some (st.1, st.2.1)

/-! ### Access traces for the bounds-safety claim -/

/-- The cell reads of one `MatrixPathProblem.actions` call at `s`, in
evaluation order: for each delta the not-both-zero test and the two bounds
checks are evaluated first, and only when they pass does the short-circuited
comparison read `matrix[r+dr][c+dc]` and then `matrix[r][c]`. -/
def actionsBAcc (m : Grid) (s : Int × Int) : List (Int × Int) :=
  deltas.flatMap (fun d =>
    if ¬(d.1 = 0 ∧ d.2 = 0)
        ∧ 0 ≤ s.1 + d.1 ∧ s.1 + d.1 < (rowsOf m : Int)
        ∧ 0 ≤ s.2 + d.2 ∧ s.2 + d.2 < (colsOf m : Int) then
      [(s.1 + d.1, s.2 + d.2), s]
    else [])

/-- The cell reads of `recursive_dfs` from `s`: the reads of its `actions`
call, then the reads of the recursive calls on unvisited children. -/
def recDFSBAcc (m : Grid) :
    Nat → List (Int × Int) → Int × Int → List (Int × Int)
  | 0, _, _ => []
  | fuel + 1, visited, s =>
    let visited' := s :: visited
    actionsBAcc m s ++ ((actionsB m s).map (resultB s)).flatMap
      (fun c => if c ∉ visited' then recDFSBAcc m fuel visited' c else [])

/-- Every cell read of Strategy B's `depth_first_search`: the row-major scan
of `find_start_positions`, then the recursive search from every start. -/
def dfsBAcc (m : Grid) (sc : Char) : List (Int × Int) :=
  rowMajor m ++ (findStartPositions m sc).flatMap
    (fun p => recDFSBAcc m (rowsOf m * colsOf m + 1) [] p)

/-- The cell reads of the `find_words_from` loop: each iteration joins the
popped state's path into a word, reading `board[i][j]` for every path cell;
`actions` and the set tests read no cells. -/
def fwfLoopAcc (board : Grid) (pset : List (List Char)) :
    Nat → List WState → List (Int × Int)
  | 0, _ => []
  | _ + 1, [] => []
  | fuel + 1, st :: stack =>
    st.2.2 ++
      (if wordOf board st.2.2 ∈ pset then
        fwfLoopAcc board pset fuel
          (((actionsW board st).map (resultW st)).reverse ++ stack)
      else fwfLoopAcc board pset fuel stack)

/-- Every cell read of `find_words_from(x, y)`. -/
def findWordsFromAcc (board : Grid) (dict : List (List Char)) (x y : Int) :
    List (Int × Int) :=
  fwfLoopAcc board (buildPrefixSet dict)
    (TW (rowsOf board * colsOf board)) [(x, y, [(x, y)])]

/-- Every cell read of Strategy D's `find_all_words`: the searches from every
row-major start coordinate (the outer loop itself reads no cells). -/
def findAllWordsAcc (board : Grid) (dict : List (List Char)) :
    List (Int × Int) :=
  (rowMajor board).flatMap (fun p => findWordsFromAcc board dict p.1 p.2)

/-- Children generated by `expand` at `s` are exactly the `AscStep`-successors. -/
theorem mem_children_iff (m : Grid) (s q : Int × Int) :
    q ∈ (actionsB m s).map (resultB s) ↔ AscStep m s q := by
  simp only [actionsB, List.mem_map, List.mem_filter, decide_eq_true_eq]
  constructor
  · rintro ⟨d, ⟨hd, hne, h1, h2, h3, h4, hc⟩, rfl⟩
    refine ⟨?_, ?_, ⟨h1, h2, h3, h4⟩, hc⟩ <;>
      simp_all [resultB, AscStep, inWin]
  · rintro ⟨hd, hne, ⟨h1, h2, h3, h4⟩, hc⟩
    refine ⟨(q.1 - s.1, q.2 - s.2), ⟨hd, ?_⟩, ?_⟩
    · constructor
      · exact hne
      · constructor
        · omega
        · exact ⟨by omega, by omega, by omega, by simpa using hc⟩
    · simp [resultB]

/-! ### Helper lemmas on the max-fold used by the backtracking search -/

theorem foldl_max_init_le (f : Int × Int → Nat) (vs : List (Int × Int)) :
    ∀ (L : List (Int × Int)) (init : Nat),
      init ≤ L.foldl (fun acc c => if c ∉ vs then max acc (f c) else acc) init := by
  intro L
  induction L with
  | nil => intro init; simp
  | cons x xs ih =>
    intro init
    simp only [List.foldl_cons]
    exact le_trans (by split <;> simp) (ih _)

theorem le_foldl_max (f : Int × Int → Nat) (vs : List (Int × Int)) :
    ∀ (L : List (Int × Int)) (init : Nat) (x : Int × Int), x ∈ L → x ∉ vs →
      f x ≤ L.foldl (fun acc c => if c ∉ vs then max acc (f c) else acc) init := by
  intro L
  induction L with
  | nil => intro _ x hx; simp at hx
  | cons y ys ih =>
    intro init x hx hcx
    rcases List.mem_cons.mp hx with rfl | hx'
    · simp only [List.foldl_cons, if_pos hcx]
      exact le_trans (le_max_right _ _) (foldl_max_init_le f vs ys _)
    · exact ih _ x hx' hcx

theorem foldl_max_achieved (f : Int × Int → Nat) (vs : List (Int × Int)) :
    ∀ (L : List (Int × Int)) (init : Nat),
      L.foldl (fun acc c => if c ∉ vs then max acc (f c) else acc) init = init ∨
      ∃ x ∈ L, x ∉ vs ∧
        L.foldl (fun acc c => if c ∉ vs then max acc (f c) else acc) init = f x := by
  intro L
  induction L with
  | nil => intro init; left; rfl
  | cons y ys ih =>
    intro init
    simp only [List.foldl_cons]
    by_cases hcy : y ∉ vs
    · rw [if_pos hcy]
      rcases ih (max init (f y)) with h | ⟨x, hx, hcx, hfx⟩
      · rcases Nat.le_total init (f y) with hle | hle
        · right
          exact ⟨y, List.mem_cons_self _ _, hcy, by rw [h, max_eq_right hle]⟩
        · left
          rw [h, max_eq_left hle]
      · right
        exact ⟨x, List.mem_cons_of_mem _ hx, hcx, hfx⟩
    · rw [if_neg hcy]
      rcases ih init with h | ⟨x, hx, hcx, hfx⟩
      · left; exact h
      · right; exact ⟨x, List.mem_cons_of_mem _ hx, hcx, hfx⟩

theorem foldl_max_congr_zero (f : Int × Int → Nat) (vs : List (Int × Int))
    (hf : ∀ x, f x = 0) :
    ∀ (L : List (Int × Int)) (init : Nat),
      L.foldl (fun acc c => if c ∉ vs then max acc (f c) else acc) init = init := by
  intro L
  induction L with
  | nil => intro init; rfl
  | cons y ys ih =>
    intro init
    simp only [List.foldl_cons, hf]
    split <;> simp [ih]

/-- One-step unfolding of the backtracking search at positive fuel. -/
theorem recDFSB_succ (m : Grid) (fuel : Nat) (visited : List (Int × Int))
    (s : Int × Int) :
    recDFSB m (fuel + 1) visited s =
      1 + ((actionsB m s).map (resultB s)).foldl
        (fun acc c => if c ∉ s :: visited then
          max acc (recDFSB m fuel (s :: visited) c) else acc) 0 := by
  simp only [recDFSB]

/-- Zero fuel yields zero. -/
theorem recDFSB_zero (m : Grid) (visited : List (Int × Int)) (s : Int × Int) :
    recDFSB m 0 visited s = 0 := rfl

theorem foldl_max2_init_le {α : Type} (f : α → Nat) :
    ∀ (L : List α) (init : Nat), init ≤ L.foldl (fun acc c => max acc (f c)) init := by
  intro L
  induction L with
  | nil => intro init; simp
  | cons x xs ih =>
    intro init
    exact le_trans (le_max_left _ _) (ih (max init (f x)))

theorem le_foldl_max2 {α : Type} (f : α → Nat) :
    ∀ (L : List α) (init : Nat) (x : α), x ∈ L →
      f x ≤ L.foldl (fun acc c => max acc (f c)) init := by
  intro L
  induction L with
  | nil => intro _ x hx; simp at hx
  | cons y ys ih =>
    intro init x hx
    rcases List.mem_cons.mp hx with rfl | hx'
    · exact le_trans (le_max_right _ _) (foldl_max2_init_le f ys _)
    · exact ih _ x hx'

theorem foldl_max2_achieved {α : Type} (f : α → Nat) :
    ∀ (L : List α) (init : Nat),
      L.foldl (fun acc c => max acc (f c)) init = init ∨
      ∃ x ∈ L, L.foldl (fun acc c => max acc (f c)) init = f x := by
  intro L
  induction L with
  | nil => intro init; left; rfl
  | cons y ys ih =>
    intro init
    simp only [List.foldl_cons]
    rcases ih (max init (f y)) with h | ⟨x, hx, hfx⟩
    · rcases Nat.le_total init (f y) with hle | hle
      · right
        exact ⟨y, List.mem_cons_self _ _, by rw [h, max_eq_right hle]⟩
      · left
        rw [h, max_eq_left hle]
    · right
      exact ⟨x, List.mem_cons_of_mem _ hx, hfx⟩

/-! ### Strategy B: correctness of the backtracking search -/

/-- A duplicate-free list of in-window coordinates has at most
`rows * cols` entries. -/
theorem length_le_of_nodup_inWin (m : Grid) (l : List (Int × Int))
    (hnd : l.Nodup) (hin : ∀ p ∈ l, inWin m p) :
    l.length ≤ rowsOf m * colsOf m := by
  have hinj : Function.Injective (fun rc : Nat × Nat => ((rc.1 : Int), (rc.2 : Int))) := by
    rintro ⟨a1, a2⟩ ⟨b1, b2⟩ h
    simp only [Prod.mk.injEq, Nat.cast_inj] at h
    simp [h.1, h.2]
  have hcard : (winFinset m).card = rowsOf m * colsOf m := by
    rw [winFinset, Finset.card_image_of_injective _ hinj, Finset.card_product,
      Finset.card_range, Finset.card_range]
  have hsub : l.toFinset ⊆ winFinset m := by
    intro p hp
    have hpw := hin p (List.mem_toFinset.mp hp)
    obtain ⟨a, b⟩ := p
    obtain ⟨h1, h2, h3, h4⟩ := hpw
    simp only [winFinset, Finset.mem_image, Finset.mem_product, Finset.mem_range]
    exact ⟨(a.toNat, b.toNat), ⟨by omega, by omega⟩, by
      simp only [Prod.mk.injEq]
      constructor <;> omega⟩
  calc l.length = l.toFinset.card := (List.toFinset_card_of_nodup hnd).symm
    _ ≤ (winFinset m).card := Finset.card_le_card hsub
    _ = rowsOf m * colsOf m := hcard

/-- Every valid ascending simple path starting at `p` and avoiding `visited`
is counted by the backtracking search, provided the fuel covers its length. -/
theorem le_recDFSB (m : Grid) :
    ∀ (fuel : Nat) (rest : List (Int × Int)) (visited : List (Int × Int))
      (p : Int × Int),
      (p :: rest).Nodup → List.Chain' (AscStep m) (p :: rest) →
      (∀ x ∈ p :: rest, x ∉ visited) →
      rest.length + 1 ≤ fuel →
      rest.length + 1 ≤ recDFSB m fuel visited p := by
  intro fuel
  induction fuel with
  | zero => intro rest visited p _ _ _ hlen; omega
  | succ f ih =>
    intro rest visited p hnd hch hvis _
    match rest with
    | [] =>
      rw [recDFSB_succ]
      simp only [List.length_nil]
      omega
    | q :: rest' =>
      rw [recDFSB_succ]
      have hstep : AscStep m p q := (List.chain'_cons.mp hch).1
      have hqchild : q ∈ (actionsB m p).map (resultB p) :=
        (mem_children_iff m p q).mpr hstep
      have hqvis : q ∉ p :: visited := by
        intro hmem
        rcases List.mem_cons.mp hmem with rfl | hq'
        · exact (List.nodup_cons.mp hnd).1 (List.mem_cons_self _ _)
        · exact hvis q (by simp) hq'
      have hih : rest'.length + 1 ≤ recDFSB m f (p :: visited) q := by
        apply ih rest' (p :: visited) q (List.nodup_cons.mp hnd).2
          (List.chain'_cons.mp hch).2
        · intro x hx hmem
          rcases List.mem_cons.mp hmem with rfl | hx'
          · exact (List.nodup_cons.mp hnd).1 hx
          · exact hvis x (List.mem_cons_of_mem _ hx) hx'
        · simp only [List.length_cons] at *
          omega
      have hfold := le_foldl_max (recDFSB m f (p :: visited)) (p :: visited)
        ((actionsB m p).map (resultB p)) 0 q hqchild hqvis
      simp only [List.length_cons]
      omega

/-- The value computed by the backtracking search is achieved by some valid
ascending simple path starting at `p` and avoiding `visited`. -/
theorem recDFSB_achieves (m : Grid) :
    ∀ (fuel : Nat) (visited : List (Int × Int)) (p : Int × Int),
      inWin m p → p ∉ visited →
      ∃ rest : List (Int × Int),
        (p :: rest).Nodup ∧ List.Chain' (AscStep m) (p :: rest) ∧
        (∀ x ∈ p :: rest, x ∉ visited) ∧ (∀ x ∈ p :: rest, inWin m x) ∧
        (p :: rest).length = recDFSB m (fuel + 1) visited p := by
  intro fuel
  induction fuel with
  | zero =>
    intro visited p hw hv
    refine ⟨[], by simp, by simp, by simpa using hv, by simpa using hw, ?_⟩
    rw [recDFSB_succ, foldl_max_congr_zero (recDFSB m 0 (p :: visited)) (p :: visited)
      (fun x => recDFSB_zero m (p :: visited) x)]
    simp
  | succ f ih =>
    intro visited p hw hv
    rcases foldl_max_achieved (recDFSB m (f + 1) (p :: visited)) (p :: visited)
      ((actionsB m p).map (resultB p)) 0 with h | ⟨c, hc, hcv, h⟩
    · refine ⟨[], by simp, by simp, by simpa using hv, by simpa using hw, ?_⟩
      rw [recDFSB_succ, h]
      simp
    · have hstep : AscStep m p c := (mem_children_iff m p c).mp hc
      obtain ⟨rest', hnd', hch', hvis', hwin', hlen'⟩ :=
        ih (p :: visited) c hstep.2.2.1 hcv
      refine ⟨c :: rest', ?_, ?_, ?_, ?_, ?_⟩
      · rw [List.nodup_cons]
        refine ⟨fun hp => ?_, hnd'⟩
        exact hvis' p hp (List.mem_cons_self _ _)
      · exact List.chain'_cons.mpr ⟨hstep, hch'⟩
      · intro x hx
        rcases List.mem_cons.mp hx with rfl | hx'
        · exact hv
        · exact fun hmem => hvis' x hx' (List.mem_cons_of_mem _ hmem)
      · intro x hx
        rcases List.mem_cons.mp hx with rfl | hx'
        · exact hw
        · exact hwin' x hx'
      · rw [recDFSB_succ, h, ← hlen']
        simp only [List.length_cons]
        omega

/-- Membership in `find_start_positions`: the in-window coordinates holding
the start character. -/
theorem mem_findStartPositions (m : Grid) (sc : Char) (p : Int × Int) :
    p ∈ findStartPositions m sc ↔ inWin m p ∧ cellM m p.1 p.2 = sc := by
  constructor
  · intro hp
    obtain ⟨hmem, hcell⟩ := List.mem_filter.mp hp
    refine ⟨?_, of_decide_eq_true hcell⟩
    obtain ⟨row, hrow, hprow⟩ := List.mem_flatten.mp hmem
    obtain ⟨r, hr, rfl⟩ := List.mem_map.mp hrow
    obtain ⟨c, hc, rfl⟩ := List.mem_map.mp hprow
    rw [List.mem_range] at hr hc
    exact ⟨by simp, by simpa using hr, by simp, by simpa using hc⟩
  · rintro ⟨hw, hcell⟩
    obtain ⟨a, b⟩ := p
    obtain ⟨h1, h2, h3, h4⟩ :
        0 ≤ a ∧ a < (rowsOf m : Int) ∧ 0 ≤ b ∧ b < (colsOf m : Int) := hw
    refine List.mem_filter.mpr ⟨?_, decide_eq_true hcell⟩
    refine List.mem_flatten.mpr
      ⟨(List.range (colsOf m)).map (fun (c : Nat) => ((a.toNat : Int), (c : Int))), ?_, ?_⟩
    · refine List.mem_map.mpr ⟨a.toNat, ?_, ?_⟩
      · exact List.mem_range.mpr (by omega)
      · rfl
    · refine List.mem_map.mpr ⟨b.toNat, ?_, ?_⟩
      · exact List.mem_range.mpr (by omega)
      · simp only [Prod.mk.injEq]
        constructor <;> omega

/-! ### Claim C1: the concrete 2×2 scenario -/

/-- C1 counterexample: on the grid `[["A","B"],["D","C"]]` with start
character `"A"`, Strategy B does not return 3 as the claim states. -/
theorem claim_C1_counterexample : dfsB [['A','B'],['D','C']] 'A' ≠ 3 := by decide

/-- C1 (amended): on the 2×2 grid `[["A","B"],["D","C"]]` with start
character `"A"`, the backtracking search returns 4: the ascending chain
A(0,0) → B(0,1) → C(1,1) → D(1,0) has four cells, each step 8-adjacent and
ascending by exactly one code point. -/
theorem claim_C1_amended : dfsB [['A','B'],['D','C']] 'A' = 4 := by decide

/-! ### Claim C4: Strategy B computes the longest ascending path -/

/-- The top-level fold dominates the search value at any start position. -/
theorem le_dfsB (m : Grid) (sc : Char) (p : Int × Int)
    (hp : p ∈ findStartPositions m sc) :
    recDFSB m (rowsOf m * colsOf m + 1) [] p ≤ dfsB m sc :=
  le_foldl_max2 (recDFSB m (rowsOf m * colsOf m + 1) [])
    (findStartPositions m sc) 0 p hp

/-- C4: for every grid and start character, `depth_first_search` returns the
cell count of the longest valid ascending simple path anchored at a cell
holding the start character: the result is 0 exactly when no cell holds the
start character, every valid ascending path starting at a start cell is no
longer than the result, and some such path realises the result whenever a
start cell exists (in particular a start cell with no valid successors
contributes a path of length 1, so the result is then at least 1). -/
theorem claim_C4 (m : Grid) (sc : Char) :
    (dfsB m sc = 0 ↔ findStartPositions m sc = []) ∧
    (∀ l, AscPath m l → cellM m l.headI.1 l.headI.2 = sc →
      l.length ≤ dfsB m sc) ∧
    (findStartPositions m sc ≠ [] →
      ∃ l, AscPath m l ∧ cellM m l.headI.1 l.headI.2 = sc ∧
        l.length = dfsB m sc) := by
  have hpos : ∀ q ∈ findStartPositions m sc, 1 ≤ dfsB m sc := by
    intro q hq
    have h1 : 1 ≤ recDFSB m (rowsOf m * colsOf m + 1) [] q := by
      rw [recDFSB_succ]
      omega
    exact le_trans h1 (le_dfsB m sc q hq)
  refine ⟨⟨?_, ?_⟩, ?_, ?_⟩
  · intro h0
    by_contra hne
    obtain ⟨q, rest, hqr⟩ := List.exists_cons_of_ne_nil hne
    have hq : q ∈ findStartPositions m sc := by
      rw [hqr]
      exact List.mem_cons_self _ _
    have := hpos q hq
    omega
  · intro h
    unfold dfsB
    rw [h]
    rfl
  · intro l hap hsc
    obtain ⟨hne, hnd, hch, hin⟩ := hap
    obtain ⟨p, rest, rfl⟩ := List.exists_cons_of_ne_nil hne
    simp only [List.headI] at hsc
    have hp : p ∈ findStartPositions m sc :=
      (mem_findStartPositions m sc p).mpr ⟨hin p (List.mem_cons_self _ _), hsc⟩
    have hbound : (p :: rest).length ≤ rowsOf m * colsOf m :=
      length_le_of_nodup_inWin m (p :: rest) hnd hin
    simp only [List.length_cons] at hbound
    have h2 : rest.length + 1 ≤ recDFSB m (rowsOf m * colsOf m + 1) [] p :=
      le_recDFSB m (rowsOf m * colsOf m + 1) rest [] p hnd hch
        (by simp) (by omega)
    have h3 := le_trans h2 (le_dfsB m sc p hp)
    simpa using h3
  · intro hne
    have hach := foldl_max2_achieved (recDFSB m (rowsOf m * colsOf m + 1) [])
      (findStartPositions m sc) 0
    rcases hach with h | ⟨p, hp, h⟩
    · exfalso
      obtain ⟨q, rest, hqr⟩ := List.exists_cons_of_ne_nil hne
      have hq : q ∈ findStartPositions m sc := by
        rw [hqr]
        exact List.mem_cons_self _ _
      have h1 := hpos q hq
      have hd : dfsB m sc = 0 := h
      omega
    · obtain ⟨hw, hcell⟩ := (mem_findStartPositions m sc p).mp hp
      obtain ⟨rest, hnd, hch, _, hwin, hlen⟩ :=
        recDFSB_achieves m (rowsOf m * colsOf m) [] p hw (by simp)
      refine ⟨p :: rest, ⟨by simp, hnd, hch, hwin⟩, by simpa using hcell, ?_⟩
      rw [hlen]
      exact h.symm

/-- C4 witness: the third conjunct instantiated on the concrete 2×2 grid. -/
theorem claim_C4_witness :
    ∃ l, AscPath [['A','B'],['D','C']] l ∧
      cellM [['A','B'],['D','C']] l.headI.1 l.headI.2 = 'A' ∧
      l.length = dfsB [['A','B'],['D','C']] 'A' :=
  (claim_C4 [['A','B'],['D','C']] 'A').2.2 (by decide)

/-! ### Flood fill: cell and shape lemmas -/

theorem cellM_eq_getElem? (g : Grid) (x y : Int) :
    cellM g x y = (((g[x.toNat]?).getD [])[y.toNat]?).getD ' ' := by
  simp [cellM, List.getD_eq_getElem?_getD]

theorem rowsOf_setCell (g : Grid) (x y : Int) (c : Char) :
    rowsOf (setCell g x y c) = rowsOf g := by
  simp [setCell, rowsOf]

theorem colsOf_setCell (g : Grid) (x y : Int) (c : Char) :
    colsOf (setCell g x y c) = colsOf g := by
  match g with
  | [] => rfl
  | r :: rs =>
    rcases hx : x.toNat with _ | n
    · simp [setCell, colsOf, hx]
    · simp [setCell, colsOf, hx]

theorem getD_eq_getElem (g : Grid) (n : Nat) (h : n < g.length) :
    g.getD n [] = g[n] := by
  simp [List.getD_eq_getElem?_getD, List.getElem?_eq_getElem h]

theorem Rect_setCell (g : Grid) (x y : Int) (c : Char) (hrect : Rect g) :
    Rect (setCell g x y c) := by
  by_cases hlt : x.toNat < g.length
  · intro row hrow
    rw [colsOf_setCell]
    rcases List.mem_or_eq_of_mem_set hrow with h | rfl
    · exact hrect row h
    · rw [getD_eq_getElem g x.toNat hlt, List.length_set]
      exact hrect _ (List.getElem_mem hlt)
  · unfold setCell
    rw [List.set_eq_of_length_le (by omega)]
    exact hrect

theorem cellM_setCell_same (g : Grid) (x y : Int) (c : Char) (hrect : Rect g)
    (hwin : inWin g (x, y)) : cellM (setCell g x y c) x y = c := by
  obtain ⟨h1, h2, h3, h4⟩ :
      0 ≤ x ∧ x < (rowsOf g : Int) ∧ 0 ≤ y ∧ y < (colsOf g : Int) := hwin
  have hxlen : x.toNat < g.length := by
    simp only [rowsOf] at h2
    omega
  have hmem : g[x.toNat] ∈ g := List.getElem_mem hxlen
  have hylen : y.toNat < (g[x.toNat]).length := by
    rw [hrect _ hmem]
    omega
  rw [cellM_eq_getElem?]
  simp only [setCell]
  rw [getD_eq_getElem g x.toNat hxlen,
    List.getElem?_set_self (by simpa using hxlen), Option.getD_some,
    List.getElem?_set_self (by simpa using hylen), Option.getD_some]

theorem cellM_setCell_ne (g : Grid) (x y a b : Int) (c : Char)
    (hx : 0 ≤ x) (hy : 0 ≤ y) (ha : 0 ≤ a) (hb : 0 ≤ b)
    (hne : (a, b) ≠ (x, y)) :
    cellM (setCell g x y c) a b = cellM g a b := by
  rw [cellM_eq_getElem?, cellM_eq_getElem?]
  by_cases hax : a = x
  · subst hax
    have hbn : b.toNat ≠ y.toNat := by
      have : b ≠ y := fun h => hne (by rw [h])
      omega
    by_cases hlt : a.toNat < g.length
    · simp only [setCell]
      rw [List.getElem?_set_self (by simpa using hlt), Option.getD_some,
        getD_eq_getElem g a.toNat hlt,
        List.getElem?_set_ne (by omega : y.toNat ≠ b.toNat),
        List.getElem?_eq_getElem hlt, Option.getD_some]
    · simp only [setCell]
      rw [List.set_eq_of_length_le (by omega)]
  · have haxn : x.toNat ≠ a.toNat := by omega
    simp only [setCell]
    rw [List.getElem?_set_ne haxn]

/-! ### Flood fill: equations and invariants of the recursive walk -/

theorem dfsFF_zero (tc rc : Char) (g : Grid) (x y : Int) :
    dfsFF tc rc 0 g x y = none := rfl

theorem dfsFF_succ (tc rc : Char) (fuel : Nat) (g : Grid) (x y : Int) :
    dfsFF tc rc (fuel + 1) g x y =
      if isValidFF g tc x y then
        (dfsFF tc rc fuel (setCell g x y rc) (x - 1) y).bind (fun g2 =>
          (dfsFF tc rc fuel g2 (x + 1) y).bind (fun g3 =>
            (dfsFF tc rc fuel g3 x (y - 1)).bind (fun g4 =>
              dfsFF tc rc fuel g4 x (y + 1))))
      else some g := by
  simp only [dfsFF]

theorem dfsFF_dims (tc rc : Char) :
    ∀ (fuel : Nat) (g : Grid) (x y : Int) (g' : Grid),
      dfsFF tc rc fuel g x y = some g' →
      rowsOf g' = rowsOf g ∧ colsOf g' = colsOf g := by
  intro fuel
  induction fuel with
  | zero => intro g x y g' h; exact absurd h (by simp [dfsFF_zero])
  | succ f ih =>
    intro g x y g' h
    rw [dfsFF_succ] at h
    split at h
    · obtain ⟨g2, h2, h'⟩ := Option.bind_eq_some.mp h
      obtain ⟨g3, h3, h''⟩ := Option.bind_eq_some.mp h'
      obtain ⟨g4, h4, h5⟩ := Option.bind_eq_some.mp h''
      obtain ⟨e2a, e2b⟩ := ih _ _ _ _ h2
      obtain ⟨e3a, e3b⟩ := ih _ _ _ _ h3
      obtain ⟨e4a, e4b⟩ := ih _ _ _ _ h4
      obtain ⟨e5a, e5b⟩ := ih _ _ _ _ h5
      constructor
      · rw [e5a, e4a, e3a, e2a, rowsOf_setCell]
      · rw [e5b, e4b, e3b, e2b, colsOf_setCell]
    · simp only [Option.some.injEq] at h
      subst h
      exact ⟨rfl, rfl⟩

theorem inWin_congr (g g' : Grid) (hr : rowsOf g' = rowsOf g)
    (hc : colsOf g' = colsOf g) (p : Int × Int) : inWin g' p ↔ inWin g p := by
  unfold inWin
  rw [hr, hc]

/-! ### The window list and the colour-count measure -/

theorem mem_winList (g : Grid) (p : Int × Int) : p ∈ winList g ↔ inWin g p := by
  constructor
  · intro hp
    obtain ⟨⟨r, c⟩, hrc, rfl⟩ := List.mem_map.mp hp
    obtain ⟨hr, hc⟩ := List.mem_product.mp hrc
    rw [List.mem_range] at hr hc
    exact ⟨by simp, by simpa using hr, by simp, by simpa using hc⟩
  · intro hw
    obtain ⟨a, b⟩ := p
    obtain ⟨h1, h2, h3, h4⟩ :
        0 ≤ a ∧ a < (rowsOf g : Int) ∧ 0 ≤ b ∧ b < (colsOf g : Int) := hw
    refine List.mem_map.mpr ⟨(a.toNat, b.toNat), ?_, ?_⟩
    · exact List.mem_product.mpr
        ⟨List.mem_range.mpr (by omega), List.mem_range.mpr (by omega)⟩
    · simp only [Prod.mk.injEq]
      constructor <;> omega

theorem nodup_winList (g : Grid) : (winList g).Nodup := by
  apply List.Nodup.map
  · rintro ⟨a1, a2⟩ ⟨b1, b2⟩ h
    simp only [Prod.mk.injEq, Nat.cast_inj] at h
    simp [h.1, h.2]
  · exact (List.nodup_range _).product (List.nodup_range _)

theorem winList_congr (g g' : Grid) (hr : rowsOf g' = rowsOf g)
    (hc : colsOf g' = colsOf g) : winList g' = winList g := by
  unfold winList
  rw [hr, hc]

theorem length_winList (g : Grid) : (winList g).length = rowsOf g * colsOf g := by
  unfold winList
  rw [List.length_map, List.length_product, List.length_range, List.length_range]

theorem colorCount_le (g : Grid) (tc : Char) :
    colorCount g tc ≤ rowsOf g * colsOf g := by
  unfold colorCount
  exact le_trans (List.countP_le_length _) (le_of_eq (length_winList g))

theorem countP_le_of_agree {α : Type} (P Q : α → Bool) (p : α)
    (himp : Q p = true → P p = true) :
    ∀ L : List α, (∀ x ∈ L, x ≠ p → Q x = P x) → L.countP Q ≤ L.countP P := by
  intro L
  induction L with
  | nil => intro _; simp
  | cons y ys ih =>
    intro hagree
    rw [List.countP_cons, List.countP_cons]
    have ht : ys.countP Q ≤ ys.countP P :=
      ih (fun x hx => hagree x (List.mem_cons_of_mem _ hx))
    have hQP : Q y = true → P y = true := by
      by_cases hyp : y = p
      · subst hyp; exact himp
      · intro hq
        rw [← hagree y (List.mem_cons_self _ _) hyp]
        exact hq
    by_cases hq : Q y = true
    · rw [if_pos hq, if_pos (hQP hq)]
      omega
    · rw [if_neg hq]
      have : (0 : Nat) ≤ if P y = true then 1 else 0 := Nat.zero_le _
      omega

theorem countP_lt_of_flip {α : Type} (P Q : α → Bool) (p : α) :
    ∀ L : List α, L.Nodup → p ∈ L → P p = true → Q p = false →
      (∀ x ∈ L, x ≠ p → Q x = P x) → L.countP Q < L.countP P := by
  intro L
  induction L with
  | nil => intro _ h; simp at h
  | cons y ys ih =>
    intro hnd hp hP hQ hagree
    rw [List.countP_cons, List.countP_cons]
    rcases List.mem_cons.mp hp with rfl | hp'
    · have hys : ∀ x ∈ ys, Q x = P x := by
        intro x hx
        refine hagree x (List.mem_cons_of_mem _ hx) ?_
        intro h
        subst h
        exact (List.nodup_cons.mp hnd).1 hx
      have heq : ys.countP Q = ys.countP P :=
        List.countP_congr (fun x hx => by rw [hys x hx])
      rw [heq, if_pos hP, if_neg (by simp [hQ])]
      omega
    · have hyne : y ≠ p := by
        intro h
        subst h
        exact (List.nodup_cons.mp hnd).1 hp'
      have hy : Q y = P y := hagree y (List.mem_cons_self _ _) hyne
      have ht := ih (List.nodup_cons.mp hnd).2 hp' hP hQ
        (fun x hx hxe => hagree x (List.mem_cons_of_mem _ hx) hxe)
      rw [hy]
      omega

theorem colorCount_setCell_le (g : Grid) (x y : Int) (tc rc : Char)
    (hrect : Rect g) (hwin : inWin g (x, y)) (hcell : cellM g x y = tc) :
    colorCount (setCell g x y rc) tc ≤ colorCount g tc := by
  unfold colorCount
  rw [winList_congr g (setCell g x y rc) (rowsOf_setCell g x y rc)
    (colsOf_setCell g x y rc)]
  apply countP_le_of_agree _ _ ((x, y) : Int × Int)
  · intro _
    simp [hcell]
  · intro q hq hqne
    have hwq := (mem_winList g q).mp hq
    have := cellM_setCell_ne g x y q.1 q.2 rc hwin.1 hwin.2.2.1 hwq.1 hwq.2.2.1
      (by exact hqne)
    rw [this]

theorem colorCount_setCell_lt (g : Grid) (x y : Int) (tc rc : Char)
    (hrect : Rect g) (hwin : inWin g (x, y)) (hcell : cellM g x y = tc)
    (hne : tc ≠ rc) :
    colorCount (setCell g x y rc) tc < colorCount g tc := by
  unfold colorCount
  rw [winList_congr g (setCell g x y rc) (rowsOf_setCell g x y rc)
    (colsOf_setCell g x y rc)]
  apply countP_lt_of_flip _ _ ((x, y) : Int × Int) (winList g) (nodup_winList g)
    ((mem_winList g _).mpr hwin)
  · simp [hcell]
  · have hset := cellM_setCell_same g x y rc hrect hwin
    simp only [hset]
    exact decide_eq_false (fun h => hne h.symm)
  · intro q hq hqne
    have hwq := (mem_winList g q).mp hq
    have := cellM_setCell_ne g x y q.1 q.2 rc hwin.1 hwin.2.2.1 hwq.1 hwq.2.2.1
      (by exact hqne)
    rw [this]

theorem dfsFF_rect_count (tc rc : Char) :
    ∀ (fuel : Nat) (g : Grid) (x y : Int) (g' : Grid), Rect g →
      dfsFF tc rc fuel g x y = some g' →
      Rect g' ∧ colorCount g' tc ≤ colorCount g tc := by
  intro fuel
  induction fuel with
  | zero => intro g x y g' _ h; exact absurd h (by simp [dfsFF_zero])
  | succ f ih =>
    intro g x y g' hrect h
    rw [dfsFF_succ] at h
    split at h
    · rename_i hvalid
      have hwin : inWin g (x, y) :=
        ⟨hvalid.1, hvalid.2.1, hvalid.2.2.1, hvalid.2.2.2.1⟩
      have hcell : cellM g x y = tc := hvalid.2.2.2.2
      obtain ⟨g2, h2, h'⟩ := Option.bind_eq_some.mp h
      obtain ⟨g3, h3, h''⟩ := Option.bind_eq_some.mp h'
      obtain ⟨g4, h4, h5⟩ := Option.bind_eq_some.mp h''
      have hrect1 := Rect_setCell g x y rc hrect
      have hc1 := colorCount_setCell_le g x y tc rc hrect hwin hcell
      obtain ⟨hrect2, hc2⟩ := ih _ _ _ _ hrect1 h2
      obtain ⟨hrect3, hc3⟩ := ih _ _ _ _ hrect2 h3
      obtain ⟨hrect4, hc4⟩ := ih _ _ _ _ hrect3 h4
      obtain ⟨hrect5, hc5⟩ := ih _ _ _ _ hrect4 h5
      exact ⟨hrect5, by omega⟩
    · simp only [Option.some.injEq] at h
      subst h
      exact ⟨hrect, le_refl _⟩

theorem dfsFF_success (tc rc : Char) (hne : tc ≠ rc) :
    ∀ (fuel : Nat) (g : Grid) (x y : Int), Rect g → colorCount g tc < fuel →
      ∃ g', dfsFF tc rc fuel g x y = some g' := by
  intro fuel
  induction fuel with
  | zero => intro g x y _ hcnt; omega
  | succ f ih =>
    intro g x y hrect hcnt
    rw [dfsFF_succ]
    by_cases hv : isValidFF g tc x y
    · rw [if_pos hv]
      have hwin : inWin g (x, y) := ⟨hv.1, hv.2.1, hv.2.2.1, hv.2.2.2.1⟩
      have hcell : cellM g x y = tc := hv.2.2.2.2
      have hlt := colorCount_setCell_lt g x y tc rc hrect hwin hcell hne
      have hrect1 := Rect_setCell g x y rc hrect
      obtain ⟨g2, h2⟩ := ih (setCell g x y rc) (x - 1) y hrect1 (by omega)
      obtain ⟨hrect2, hcnt2⟩ := dfsFF_rect_count tc rc f _ _ _ _ hrect1 h2
      obtain ⟨g3, h3⟩ := ih g2 (x + 1) y hrect2 (by omega)
      obtain ⟨hrect3, hcnt3⟩ := dfsFF_rect_count tc rc f _ _ _ _ hrect2 h3
      obtain ⟨g4, h4⟩ := ih g3 x (y - 1) hrect3 (by omega)
      obtain ⟨hrect4, hcnt4⟩ := dfsFF_rect_count tc rc f _ _ _ _ hrect3 h4
      obtain ⟨g5, h5⟩ := ih g4 x (y + 1) hrect4 (by omega)
      refine ⟨g5, ?_⟩
      rw [h2]
      simp only [Option.some_bind]
      rw [h3]
      simp only [Option.some_bind]
      rw [h4]
      simp only [Option.some_bind]
      exact h5
    · rw [if_neg hv]
      exact ⟨g, rfl⟩

/-! ### 4-adjacency and region basics -/

theorem adj4_up (x y : Int) : adj4 (x, y) (x - 1, y) := by
  show ((x - 1) - x, y - y) ∈ _
  have h1 : (x - 1) - x = (-1 : Int) := by ring
  have h2 : y - y = (0 : Int) := by ring
  rw [h1, h2]
  simp

theorem adj4_down (x y : Int) : adj4 (x, y) (x + 1, y) := by
  show ((x + 1) - x, y - y) ∈ _
  have h1 : (x + 1) - x = (1 : Int) := by ring
  have h2 : y - y = (0 : Int) := by ring
  rw [h1, h2]
  simp

theorem adj4_left (x y : Int) : adj4 (x, y) (x, y - 1) := by
  show (x - x, (y - 1) - y) ∈ _
  have h1 : x - x = (0 : Int) := by ring
  have h2 : (y - 1) - y = (-1 : Int) := by ring
  rw [h1, h2]
  simp

theorem adj4_right (x y : Int) : adj4 (x, y) (x, y + 1) := by
  show (x - x, (y + 1) - y) ∈ _
  have h1 : x - x = (0 : Int) := by ring
  have h2 : (y + 1) - y = (1 : Int) := by ring
  rw [h1, h2]
  simp

theorem adj4_cases (p q : Int × Int) (h : adj4 p q) :
    q = (p.1 - 1, p.2) ∨ q = (p.1 + 1, p.2) ∨
      q = (p.1, p.2 - 1) ∨ q = (p.1, p.2 + 1) := by
  obtain ⟨a, b⟩ := q
  unfold adj4 at h
  simp only [List.mem_cons, List.not_mem_nil, or_false, Prod.mk.injEq] at h
  rcases h with ⟨h1, h2⟩ | ⟨h1, h2⟩ | ⟨h1, h2⟩ | ⟨h1, h2⟩
  · left
    simp only [Prod.mk.injEq]
    omega
  · right; left
    simp only [Prod.mk.injEq]
    omega
  · right; right; left
    simp only [Prod.mk.injEq]
    omega
  · right; right; right
    simp only [Prod.mk.injEq]
    omega

theorem regionFF_cells (g : Grid) (tc : Char) (s p : Int × Int)
    (h : RegionFF g tc s p) : inWin g p ∧ cellM g p.1 p.2 = tc := by
  induction h with
  | base hw hc => exact ⟨hw, hc⟩
  | step p q _ _ hw hc _ => exact ⟨hw, hc⟩

theorem regionFF_start (g : Grid) (tc : Char) (s p : Int × Int)
    (h : RegionFF g tc s p) : cellM g s.1 s.2 = tc := by
  induction h with
  | base _ hc => exact hc
  | step p q _ _ _ _ ih => exact ih

/-! ### Cell evolution across a successful walk -/

theorem dfsFF_cells (tc rc : Char) :
    ∀ (fuel : Nat) (g : Grid) (x y : Int) (g' : Grid), Rect g →
      dfsFF tc rc fuel g x y = some g' →
      ∀ p : Int × Int, inWin g p →
        cellM g' p.1 p.2 = cellM g p.1 p.2 ∨ cellM g' p.1 p.2 = rc := by
  intro fuel
  induction fuel with
  | zero => intro g x y g' _ h; exact absurd h (by simp [dfsFF_zero])
  | succ f ih =>
    intro g x y g' hrect h p hp
    rw [dfsFF_succ] at h
    split at h
    · rename_i hvalid
      have hwin : inWin g (x, y) :=
        ⟨hvalid.1, hvalid.2.1, hvalid.2.2.1, hvalid.2.2.2.1⟩
      obtain ⟨g2, h2, h'⟩ := Option.bind_eq_some.mp h
      obtain ⟨g3, h3, h''⟩ := Option.bind_eq_some.mp h'
      obtain ⟨g4, h4, h5⟩ := Option.bind_eq_some.mp h''
      have hrect1 := Rect_setCell g x y rc hrect
      have hrect2 := (dfsFF_rect_count tc rc f _ _ _ _ hrect1 h2).1
      have hrect3 := (dfsFF_rect_count tc rc f _ _ _ _ hrect2 h3).1
      have hrect4 := (dfsFF_rect_count tc rc f _ _ _ _ hrect3 h4).1
      have hd2 := dfsFF_dims tc rc f _ _ _ _ h2
      have hd3 := dfsFF_dims tc rc f _ _ _ _ h3
      have hd4 := dfsFF_dims tc rc f _ _ _ _ h4
      have hw1 : inWin (setCell g x y rc) p :=
        (inWin_congr g _ (rowsOf_setCell g x y rc) (colsOf_setCell g x y rc) p).mpr hp
      have hw2 : inWin g2 p :=
        (inWin_congr g g2 (by rw [hd2.1, rowsOf_setCell])
          (by rw [hd2.2, colsOf_setCell]) p).mpr hp
      have hw3 : inWin g3 p := (inWin_congr g2 g3 hd3.1 hd3.2 p).mpr hw2
      have hw4 : inWin g4 p := (inWin_congr g3 g4 hd4.1 hd4.2 p).mpr hw3
      have comp : ∀ {u v w : Char}, (u = v ∨ u = rc) → (v = w ∨ v = rc) →
          (u = w ∨ u = rc) := by
        intro u v w hu hv
        rcases hu with rfl | hu
        · rcases hv with rfl | hv
          · left; rfl
          · right; exact hv
        · right; exact hu
      have w5 := ih g4 x (y + 1) g' hrect4 h5 p hw4
      have w4 := ih g3 x (y - 1) g4 hrect3 h4 p hw3
      have w3 := ih g2 (x + 1) y g3 hrect2 h3 p hw2
      have w2 := ih (setCell g x y rc) (x - 1) y g2 hrect1 h2 p hw1
      have w1 : cellM (setCell g x y rc) p.1 p.2 = cellM g p.1 p.2 ∨
          cellM (setCell g x y rc) p.1 p.2 = rc := by
        by_cases hpe : p = (x, y)
        · right
          subst hpe
          exact cellM_setCell_same g x y rc hrect hwin
        · left
          exact cellM_setCell_ne g x y p.1 p.2 rc hwin.1 hwin.2.2.1 hp.1 hp.2.2.1
            (by exact hpe)
      exact comp (comp (comp (comp w5 w4) w3) w2) w1
    · simp only [Option.some.injEq] at h
      subst h
      left
      rfl

theorem dfsFF_after (tc rc : Char) (hne : tc ≠ rc) :
    ∀ (fuel : Nat) (g : Grid) (x y : Int) (g' : Grid), Rect g →
      dfsFF tc rc fuel g x y = some g' → inWin g (x, y) →
      cellM g' x y ≠ tc := by
  intro fuel
  induction fuel with
  | zero => intro g x y g' _ h; exact absurd h (by simp [dfsFF_zero])
  | succ f ih =>
    intro g x y g' hrect h hwin
    rw [dfsFF_succ] at h
    split at h
    · rename_i hvalid
      obtain ⟨g2, h2, h'⟩ := Option.bind_eq_some.mp h
      obtain ⟨g3, h3, h''⟩ := Option.bind_eq_some.mp h'
      obtain ⟨g4, h4, h5⟩ := Option.bind_eq_some.mp h''
      have hrect1 := Rect_setCell g x y rc hrect
      have hrect2 := (dfsFF_rect_count tc rc f _ _ _ _ hrect1 h2).1
      have hrect3 := (dfsFF_rect_count tc rc f _ _ _ _ hrect2 h3).1
      have hrect4 := (dfsFF_rect_count tc rc f _ _ _ _ hrect3 h4).1
      have hd2 := dfsFF_dims tc rc f _ _ _ _ h2
      have hd3 := dfsFF_dims tc rc f _ _ _ _ h3
      have hd4 := dfsFF_dims tc rc f _ _ _ _ h4
      have hw1 : inWin (setCell g x y rc) ((x, y) : Int × Int) :=
        (inWin_congr g _ (rowsOf_setCell g x y rc) (colsOf_setCell g x y rc) _).mpr hwin
      have hw2 : inWin g2 ((x, y) : Int × Int) :=
        (inWin_congr g g2 (by rw [hd2.1, rowsOf_setCell])
          (by rw [hd2.2, colsOf_setCell]) _).mpr hwin
      have hw3 : inWin g3 ((x, y) : Int × Int) :=
        (inWin_congr g2 g3 hd3.1 hd3.2 _).mpr hw2
      have hw4 : inWin g4 ((x, y) : Int × Int) :=
        (inWin_congr g3 g4 hd4.1 hd4.2 _).mpr hw3
      have hstart : cellM (setCell g x y rc) x y = rc :=
        cellM_setCell_same g x y rc hrect hwin
      have keep : ∀ (ga gb : Grid) (a b : Int), Rect ga →
          dfsFF tc rc f ga a b = some gb → inWin ga ((x, y) : Int × Int) →
          cellM ga x y = rc → cellM gb x y = rc := by
        intro ga gb a b hra hab hwa hca
        rcases dfsFF_cells tc rc f ga a b gb hra hab (x, y) hwa with e | e
        · rw [e]; exact hca
        · exact e
      have c2 := keep _ g2 (x - 1) y hrect1 h2 hw1 hstart
      have c3 := keep g2 g3 (x + 1) y hrect2 h3 hw2 c2
      have c4 := keep g3 g4 x (y - 1) hrect3 h4 hw3 c3
      have c5 := keep g4 g' x (y + 1) hrect4 h5 hw4 c4
      rw [c5]
      exact fun hh => hne hh.symm
    · rename_i hinv
      simp only [Option.some.injEq] at h
      subst h
      exact fun hc =>
        hinv ⟨hwin.1, hwin.2.1, hwin.2.2.1, hwin.2.2.2, hc⟩

/-! ### Soundness: the walk touches only region cells -/

theorem dfsFF_sound (g0 : Grid) (tc rc : Char) (s : Int × Int) (hne : tc ≠ rc) :
    ∀ (fuel : Nat) (g : Grid) (x y : Int) (g' : Grid),
      Rect g → rowsOf g = rowsOf g0 → colsOf g = colsOf g0 →
      FillInv g0 tc rc s g →
      ((x, y) = s ∨ ∃ r, RegionFF g0 tc s r ∧ adj4 r (x, y)) →
      dfsFF tc rc fuel g x y = some g' → FillInv g0 tc rc s g' := by
  intro fuel
  induction fuel with
  | zero => intro g x y g' _ _ _ _ _ h; exact absurd h (by simp [dfsFF_zero])
  | succ f ih =>
    intro g x y g' hrect hrows hcols hinv hpre h
    rw [dfsFF_succ] at h
    split at h
    · rename_i hvalid
      obtain ⟨g2, h2, h'⟩ := Option.bind_eq_some.mp h
      obtain ⟨g3, h3, h''⟩ := Option.bind_eq_some.mp h'
      obtain ⟨g4, h4, h5⟩ := Option.bind_eq_some.mp h''
      have hwin : inWin g (x, y) :=
        ⟨hvalid.1, hvalid.2.1, hvalid.2.2.1, hvalid.2.2.2.1⟩
      have hwin0 : inWin g0 ((x, y) : Int × Int) :=
        (inWin_congr g0 g hrows hcols _).mp hwin
      have hcell : cellM g x y = tc := hvalid.2.2.2.2
      have hcell0 : cellM g0 x y = tc := by
        rcases hinv (x, y) hwin0 with he | ⟨_, he⟩
        · have he' : cellM g x y = cellM g0 x y := he
          rw [← he']
          exact hcell
        · exfalso
          have he' : cellM g x y = rc := he
          rw [hcell] at he'
          exact hne he'
      have hregion : RegionFF g0 tc s ((x, y) : Int × Int) := by
        rcases hpre with heq | ⟨r, hr, hadj⟩
        · subst heq
          exact RegionFF.base hwin0 hcell0
        · exact RegionFF.step r (x, y) hr hadj hwin0 hcell0
      have hrect1 := Rect_setCell g x y rc hrect
      have hrows1 : rowsOf (setCell g x y rc) = rowsOf g0 := by
        rw [rowsOf_setCell]; exact hrows
      have hcols1 : colsOf (setCell g x y rc) = colsOf g0 := by
        rw [colsOf_setCell]; exact hcols
      have hinv1 : FillInv g0 tc rc s (setCell g x y rc) := by
        intro p hp0
        by_cases hpe : p = (x, y)
        · subst hpe
          right
          refine ⟨hregion, ?_⟩
          show cellM (setCell g x y rc) x y = rc
          exact cellM_setCell_same g x y rc hrect hwin
        · have hp : inWin g p := (inWin_congr g0 g hrows hcols p).mpr hp0
          have hcne := cellM_setCell_ne g x y p.1 p.2 rc hwin.1 hwin.2.2.1
            hp.1 hp.2.2.1 (by exact hpe)
          rcases hinv p hp0 with he | ⟨hreg, he⟩
          · left
            rw [hcne]
            exact he
          · right
            exact ⟨hreg, by rw [hcne]; exact he⟩
      have hinv2 := ih _ _ _ _ hrect1 hrows1 hcols1 hinv1
        (Or.inr ⟨(x, y), hregion, adj4_up x y⟩) h2
      have hrect2 := (dfsFF_rect_count tc rc f _ _ _ _ hrect1 h2).1
      have hd2 := dfsFF_dims tc rc f _ _ _ _ h2
      have hrows2 : rowsOf g2 = rowsOf g0 := by rw [hd2.1]; exact hrows1
      have hcols2 : colsOf g2 = colsOf g0 := by rw [hd2.2]; exact hcols1
      have hinv3 := ih _ _ _ _ hrect2 hrows2 hcols2 hinv2
        (Or.inr ⟨(x, y), hregion, adj4_down x y⟩) h3
      have hrect3 := (dfsFF_rect_count tc rc f _ _ _ _ hrect2 h3).1
      have hd3 := dfsFF_dims tc rc f _ _ _ _ h3
      have hrows3 : rowsOf g3 = rowsOf g0 := by rw [hd3.1]; exact hrows2
      have hcols3 : colsOf g3 = colsOf g0 := by rw [hd3.2]; exact hcols2
      have hinv4 := ih _ _ _ _ hrect3 hrows3 hcols3 hinv3
        (Or.inr ⟨(x, y), hregion, adj4_left x y⟩) h4
      have hrect4 := (dfsFF_rect_count tc rc f _ _ _ _ hrect3 h4).1
      have hd4 := dfsFF_dims tc rc f _ _ _ _ h4
      have hrows4 : rowsOf g4 = rowsOf g0 := by rw [hd4.1]; exact hrows3
      have hcols4 : colsOf g4 = colsOf g0 := by rw [hd4.2]; exact hcols3
      exact ih _ _ _ _ hrect4 hrows4 hcols4 hinv4
        (Or.inr ⟨(x, y), hregion, adj4_right x y⟩) h5
    · simp only [Option.some.injEq] at h
      subst h
      exact hinv

/-! ### Completeness: a recoloured cell leaves no target-coloured neighbour -/

theorem dfsFF_fix (tc rc : Char) (hne : tc ≠ rc) :
    ∀ (fuel : Nat) (g : Grid) (x y : Int) (g' : Grid), Rect g →
      dfsFF tc rc fuel g x y = some g' →
      ∀ ra rb : Int, inWin g (ra, rb) → cellM g' ra rb = rc →
        cellM g ra rb = rc ∨
          ∀ q : Int × Int, adj4 (ra, rb) q → inWin g q →
            cellM g' q.1 q.2 ≠ tc := by
  intro fuel
  induction fuel with
  | zero => intro g x y g' _ h; exact absurd h (by simp [dfsFF_zero])
  | succ f ih =>
    intro g x y g' hrect h ra rb hrwin hr'
    rw [dfsFF_succ] at h
    split at h
    · rename_i hvalid
      obtain ⟨g2, h2, h'⟩ := Option.bind_eq_some.mp h
      obtain ⟨g3, h3, h''⟩ := Option.bind_eq_some.mp h'
      obtain ⟨g4, h4, h5⟩ := Option.bind_eq_some.mp h''
      have hwin : inWin g (x, y) :=
        ⟨hvalid.1, hvalid.2.1, hvalid.2.2.1, hvalid.2.2.2.1⟩
      have hrect1 := Rect_setCell g x y rc hrect
      have hrect2 := (dfsFF_rect_count tc rc f _ _ _ _ hrect1 h2).1
      have hrect3 := (dfsFF_rect_count tc rc f _ _ _ _ hrect2 h3).1
      have hrect4 := (dfsFF_rect_count tc rc f _ _ _ _ hrect3 h4).1
      have hd2 := dfsFF_dims tc rc f _ _ _ _ h2
      have hd3 := dfsFF_dims tc rc f _ _ _ _ h3
      have hd4 := dfsFF_dims tc rc f _ _ _ _ h4
      have win1 : ∀ p : Int × Int, inWin (setCell g x y rc) p ↔ inWin g p :=
        fun p => inWin_congr g _ (rowsOf_setCell g x y rc) (colsOf_setCell g x y rc) p
      have win2 : ∀ p : Int × Int, inWin g2 p ↔ inWin g p := fun p =>
        inWin_congr g g2 (by rw [hd2.1, rowsOf_setCell])
          (by rw [hd2.2, colsOf_setCell]) p
      have win3 : ∀ p : Int × Int, inWin g3 p ↔ inWin g p := fun p =>
        Iff.trans (inWin_congr g2 g3 hd3.1 hd3.2 p) (win2 p)
      have win4 : ∀ p : Int × Int, inWin g4 p ↔ inWin g p := fun p =>
        Iff.trans (inWin_congr g3 g4 hd4.1 hd4.2 p) (win3 p)
      have pres4 : ∀ a b : Int, inWin g (a, b) → cellM g4 a b ≠ tc →
          cellM g' a b ≠ tc := by
        intro a b hab hnt
        rcases dfsFF_cells tc rc f g4 x (y + 1) g' hrect4 h5 (a, b)
          ((win4 _).mpr hab) with e | e
        · have e' : cellM g' a b = cellM g4 a b := e
          rw [e']
          exact hnt
        · have e' : cellM g' a b = rc := e
          rw [e']
          exact fun hh => hne hh.symm
      have pres3 : ∀ a b : Int, inWin g (a, b) → cellM g3 a b ≠ tc →
          cellM g' a b ≠ tc := by
        intro a b hab hnt
        apply pres4 a b hab
        rcases dfsFF_cells tc rc f g3 x (y - 1) g4 hrect3 h4 (a, b)
          ((win3 _).mpr hab) with e | e
        · have e' : cellM g4 a b = cellM g3 a b := e
          rw [e']
          exact hnt
        · have e' : cellM g4 a b = rc := e
          rw [e']
          exact fun hh => hne hh.symm
      have pres2 : ∀ a b : Int, inWin g (a, b) → cellM g2 a b ≠ tc →
          cellM g' a b ≠ tc := by
        intro a b hab hnt
        apply pres3 a b hab
        rcases dfsFF_cells tc rc f g2 (x + 1) y g3 hrect2 h3 (a, b)
          ((win2 _).mpr hab) with e | e
        · have e' : cellM g3 a b = cellM g2 a b := e
          rw [e']
          exact hnt
        · have e' : cellM g3 a b = rc := e
          rw [e']
          exact fun hh => hne hh.symm
      rcases ih g4 x (y + 1) g' hrect4 h5 ra rb ((win4 _).mpr hrwin) hr'
        with c4 | c4
      · rcases ih g3 x (y - 1) g4 hrect3 h4 ra rb ((win3 _).mpr hrwin) c4
          with c3 | c3
        · rcases ih g2 (x + 1) y g3 hrect2 h3 ra rb ((win2 _).mpr hrwin) c3
            with c2 | c2
          · rcases ih (setCell g x y rc) (x - 1) y g2 hrect1 h2 ra rb
              ((win1 _).mpr hrwin) c2 with c1 | c1
            · by_cases hre : ((ra, rb) : Int × Int) = (x, y)
              · right
                intro q hadj hq
                have hra : ra = x := congrArg Prod.fst hre
                have hrb : rb = y := congrArg Prod.snd hre
                rcases adj4_cases (ra, rb) q hadj with rfl | rfl | rfl | rfl
                · show cellM g' (ra - 1) rb ≠ tc
                  have hq' : inWin g ((ra - 1, rb) : Int × Int) := hq
                  rw [hra, hrb] at hq' ⊢
                  apply pres2 (x - 1) y hq'
                  exact dfsFF_after tc rc hne f (setCell g x y rc) (x - 1) y g2
                    hrect1 h2 ((win1 _).mpr hq')
                · show cellM g' (ra + 1) rb ≠ tc
                  have hq' : inWin g ((ra + 1, rb) : Int × Int) := hq
                  rw [hra, hrb] at hq' ⊢
                  apply pres3 (x + 1) y hq'
                  exact dfsFF_after tc rc hne f g2 (x + 1) y g3
                    hrect2 h3 ((win2 _).mpr hq')
                · show cellM g' ra (rb - 1) ≠ tc
                  have hq' : inWin g ((ra, rb - 1) : Int × Int) := hq
                  rw [hra, hrb] at hq' ⊢
                  apply pres4 x (y - 1) hq'
                  exact dfsFF_after tc rc hne f g3 x (y - 1) g4
                    hrect3 h4 ((win3 _).mpr hq')
                · show cellM g' ra (rb + 1) ≠ tc
                  have hq' : inWin g ((ra, rb + 1) : Int × Int) := hq
                  rw [hra, hrb] at hq' ⊢
                  exact dfsFF_after tc rc hne f g4 x (y + 1) g'
                    hrect4 h5 ((win4 _).mpr hq')
              · left
                have hcne := cellM_setCell_ne g x y ra rb rc hwin.1 hwin.2.2.1
                  hrwin.1 hrwin.2.2.1 hre
                rw [← hcne]
                exact c1
            · right
              intro q hadj hq
              exact pres2 q.1 q.2 hq (c1 q hadj ((win1 q).mpr hq))
          · right
            intro q hadj hq
            exact pres3 q.1 q.2 hq (c2 q hadj ((win2 q).mpr hq))
        · right
          intro q hadj hq
          exact pres4 q.1 q.2 hq (c3 q hadj ((win3 q).mpr hq))
      · right
        intro q hadj hq
        exact c4 q hadj ((win4 q).mpr hq)
    · simp only [Option.some.injEq] at h
      subst h
      left
      exact hr'

/-! ### The guard read and the two branches of `fill` -/

theorem pyIdx2_eq_cellM (g : Grid) (x y : Int) (hrect : Rect g)
    (hwin : inWin g (x, y)) : pyIdx2 g x y = some (cellM g x y) := by
  obtain ⟨h1, h2, h3, h4⟩ :
      0 ≤ x ∧ x < (rowsOf g : Int) ∧ 0 ≤ y ∧ y < (colsOf g : Int) := hwin
  have hxlen : x.toNat < g.length := by
    simp only [rowsOf] at h2
    omega
  have hmem : g[x.toNat] ∈ g := List.getElem_mem hxlen
  have hylen : y.toNat < (g[x.toNat]).length := by
    rw [hrect _ hmem]
    omega
  unfold pyIdx2 pyIdx
  rw [if_pos h1, List.getElem?_eq_getElem hxlen]
  simp only [Option.some_bind]
  rw [if_pos h3, List.getElem?_eq_getElem hylen, cellM_eq_getElem?,
    List.getElem?_eq_getElem hxlen, Option.getD_some,
    List.getElem?_eq_getElem hylen, Option.getD_some]

theorem fillFF_guard (g : Grid) (sx sy : Int) (tc rc : Char) (v : Char)
    (hv : pyIdx2 g sx sy = some v) (heq : v = rc) :
    fillFF g sx sy tc rc = some g := by
  subst heq
  simp [fillFF, hv]

theorem fillFF_run (g : Grid) (sx sy : Int) (tc rc : Char) (v : Char)
    (hv : pyIdx2 g sx sy = some v) (hvne : v ≠ rc) :
    fillFF g sx sy tc rc = dfsFF tc rc (rowsOf g * colsOf g + 2) g sx sy := by
  simp [fillFF, hv, hvne]

/-! ### Claim C6: flood fill recolours exactly the reachable region -/

/-- C6: after a completed fill from an in-bounds start on a rectangular
grid, every cell 4-connectedly reachable from the start through cells that
originally held the target colour equals the replacement colour, every
other in-window cell holds its original value, and the grid dimensions are
unchanged (the in-place/object-identity aspect of the claim is not
expressible in a pure embedding; the returned grid is the mutated one). -/
theorem claim_C6 (g g' : Grid) (sx sy : Int) (tc rc : Char)
    (hrect : Rect g) (hwin : inWin g (sx, sy))
    (hfill : fillFF g sx sy tc rc = some g') :
    (∀ p : Int × Int, RegionFF g tc (sx, sy) p → cellM g' p.1 p.2 = rc) ∧
    (∀ p : Int × Int, inWin g p → ¬ RegionFF g tc (sx, sy) p →
      cellM g' p.1 p.2 = cellM g p.1 p.2) ∧
    rowsOf g' = rowsOf g ∧ colsOf g' = colsOf g := by
  have hv := pyIdx2_eq_cellM g sx sy hrect hwin
  by_cases hguard : cellM g sx sy = rc
  · have hg : fillFF g sx sy tc rc = some g := fillFF_guard g sx sy tc rc _ hv hguard
    rw [hg] at hfill
    simp only [Option.some.injEq] at hfill
    subst hfill
    refine ⟨?_, fun p _ _ => rfl, rfl, rfl⟩
    intro p hp
    have hcells := regionFF_cells g tc (sx, sy) p hp
    by_cases htc : tc = rc
    · rw [hcells.2, htc]
    · exfalso
      have hst : cellM g sx sy = tc := regionFF_start g tc (sx, sy) p hp
      rw [hguard] at hst
      exact htc hst.symm
  · have hrun := fillFF_run g sx sy tc rc _ hv hguard
    rw [hrun] at hfill
    by_cases hstart : cellM g sx sy = tc
    · have hne : tc ≠ rc := fun h => hguard (by rw [hstart, h])
      have hsound := dfsFF_sound g tc rc (sx, sy) hne
        (rowsOf g * colsOf g + 2) g sx sy g' hrect rfl rfl
        (fun p _ => Or.inl rfl) (Or.inl rfl) hfill
      have hdims := dfsFF_dims tc rc _ _ _ _ _ hfill
      refine ⟨?_, ?_, hdims.1, hdims.2⟩
      · intro p hp
        induction hp with
        | base hw hc =>
          have haft := dfsFF_after tc rc hne _ g sx sy g' hrect hfill hwin
          rcases dfsFF_cells tc rc _ g sx sy g' hrect hfill (sx, sy) hwin
            with e | e
          · exfalso
            have e' : cellM g' sx sy = cellM g sx sy := e
            rw [hstart] at e'
            exact haft e'
          · exact e
        | step r q hr hadj hw hc ihp =>
          obtain ⟨ra, rb⟩ := r
          have hrwin : inWin g ((ra, rb) : Int × Int) :=
            (regionFF_cells g tc (sx, sy) (ra, rb) hr).1
          have ihp' : cellM g' ra rb = rc := ihp
          rcases dfsFF_fix tc rc hne _ g sx sy g' hrect hfill ra rb hrwin ihp'
            with cfix | cfix
          · exfalso
            have hctc : cellM g ra rb = tc :=
              (regionFF_cells g tc (sx, sy) (ra, rb) hr).2
            rw [hctc] at cfix
            exact hne cfix
          · have hqn := cfix q hadj hw
            rcases dfsFF_cells tc rc _ g sx sy g' hrect hfill q hw with e | e
            · exfalso
              rw [hc] at e
              exact hqn e
            · exact e
      · intro p hwp hnp
        rcases hsound p hwp with he | ⟨hreg, _⟩
        · exact he
        · exact absurd hreg hnp
    · have hfuel : rowsOf g * colsOf g + 2 = (rowsOf g * colsOf g + 1) + 1 := rfl
      rw [hfuel, dfsFF_succ, if_neg (fun hv' => hstart hv'.2.2.2.2)] at hfill
      simp only [Option.some.injEq] at hfill
      subst hfill
      refine ⟨?_, fun p _ _ => rfl, rfl, rfl⟩
      intro p hp
      exfalso
      exact hstart (regionFF_start g tc (sx, sy) p hp)

/-- C6 witness: the theorem applied to a concrete 2×2 fill. -/
theorem claim_C6_witness :
    (∀ p : Int × Int, RegionFF [['X','X'],['X','Y']] 'X' (0, 0) p →
      cellM [['Z','Z'],['Z','Y']] p.1 p.2 = 'Z') ∧
    (∀ p : Int × Int, inWin [['X','X'],['X','Y']] p →
      ¬ RegionFF [['X','X'],['X','Y']] 'X' (0, 0) p →
      cellM [['Z','Z'],['Z','Y']] p.1 p.2 = cellM [['X','X'],['X','Y']] p.1 p.2) ∧
    rowsOf [['Z','Z'],['Z','Y']] = rowsOf [['X','X'],['X','Y']] ∧
    colsOf [['Z','Z'],['Z','Y']] = colsOf [['X','X'],['X','Y']] :=
  claim_C6 [['X','X'],['X','Y']] [['Z','Z'],['Z','Y']] 0 0 'X' 'Z'
    (by decide) (by decide) (by decide)

/-! ### Claim C8: the guard and idempotence -/

/-- C8: if the start-cell read already yields the replacement colour, `fill`
returns the grid unmodified without traversing; and running the same fill
twice leaves the grid of the first run unchanged (the second run is a
no-op). -/
theorem claim_C8 (g : Grid) (sx sy : Int) (tc rc : Char) :
    (pyIdx2 g sx sy = some rc → fillFF g sx sy tc rc = some g) ∧
    (Rect g → ∀ g', fillFF g sx sy tc rc = some g' →
      fillFF g' sx sy tc rc = some g') := by
  constructor
  · intro hv
    exact fillFF_guard g sx sy tc rc rc hv rfl
  · intro hrect g' hfill
    cases hpy : pyIdx2 g sx sy with
    | none => simp [fillFF, hpy] at hfill
    | some v =>
      by_cases hvrc : v = rc
      · have hg := fillFF_guard g sx sy tc rc v hpy hvrc
        rw [hg] at hfill
        simp only [Option.some.injEq] at hfill
        subst hfill
        exact hg
      · have hrun := fillFF_run g sx sy tc rc v hpy hvrc
        rw [hrun] at hfill
        by_cases hvalid : isValidFF g tc sx sy
        · have hwin : inWin g ((sx, sy) : Int × Int) :=
            ⟨hvalid.1, hvalid.2.1, hvalid.2.2.1, hvalid.2.2.2.1⟩
          have hcell : cellM g sx sy = tc := hvalid.2.2.2.2
          have hvcell : v = cellM g sx sy := by
            have hv2 := pyIdx2_eq_cellM g sx sy hrect hwin
            rw [hpy] at hv2
            exact (Option.some.injEq _ _ ▸ hv2)
          have hne : tc ≠ rc := fun h => hvrc (by rw [hvcell, hcell, h])
          have haft := dfsFF_after tc rc hne _ g sx sy g' hrect hfill hwin
          have hrc : cellM g' sx sy = rc := by
            rcases dfsFF_cells tc rc _ g sx sy g' hrect hfill (sx, sy) hwin
              with e | e
            · exfalso
              have e' : cellM g' sx sy = cellM g sx sy := e
              rw [hcell] at e'
              exact haft e'
            · exact e
          have hdims := dfsFF_dims tc rc _ _ _ _ _ hfill
          have hrect' := (dfsFF_rect_count tc rc _ _ _ _ _ hrect hfill).1
          have hwin' : inWin g' ((sx, sy) : Int × Int) :=
            (inWin_congr g g' hdims.1 hdims.2 _).mpr hwin
          have hpy' : pyIdx2 g' sx sy = some rc := by
            rw [pyIdx2_eq_cellM g' sx sy hrect' hwin', hrc]
          exact fillFF_guard g' sx sy tc rc rc hpy' rfl
        · have hfuel : rowsOf g * colsOf g + 2 = (rowsOf g * colsOf g + 1) + 1 := rfl
          rw [hfuel, dfsFF_succ, if_neg hvalid] at hfill
          simp only [Option.some.injEq] at hfill
          subst hfill
          rw [hrun, hfuel, dfsFF_succ, if_neg hvalid]

/-- C8 witness: the idempotence conjunct applied to a concrete fill. -/
theorem claim_C8_witness :
    fillFF [['A','A']] 0 0 'A' 'B' = some [['B','B']] ∧
    fillFF [['B','B']] 0 0 'A' 'B' = some [['B','B']] :=
  ⟨by decide,
    (claim_C8 [['A','A']] 0 0 'A' 'B').2 (by decide) [['B','B']] (by decide)⟩

/-! ### Claim C3: bounds safety of the flood fill accesses -/

theorem dfsFFAcc_inWin (tc rc : Char) :
    ∀ (fuel : Nat) (g : Grid) (x y : Int),
      ∀ a ∈ dfsFFAcc tc rc fuel g x y, inWin g a := by
  intro fuel
  induction fuel with
  | zero =>
    intro g x y a ha
    simp only [dfsFFAcc] at ha
    exact absurd ha (List.not_mem_nil a)
  | succ f ih =>
    intro g x y a ha
    by_cases hb : 0 ≤ x ∧ x < (rowsOf g : Int) ∧ 0 ≤ y ∧ y < (colsOf g : Int)
    · by_cases hc : cellM g x y = tc
      · set g1 := setCell g x y rc with hg1
        set g2 := (dfsFF tc rc f g1 (x - 1) y).getD g1 with hg2
        set g3 := (dfsFF tc rc f g2 (x + 1) y).getD g2 with hg3
        set g4 := (dfsFF tc rc f g3 x (y - 1)).getD g3 with hg4
        have hrw : dfsFFAcc tc rc (f + 1) g x y =
            (x, y) :: (x, y) ::
              (dfsFFAcc tc rc f g1 (x - 1) y ++ dfsFFAcc tc rc f g2 (x + 1) y ++
                dfsFFAcc tc rc f g3 x (y - 1) ++ dfsFFAcc tc rc f g4 x (y + 1)) := by
          simp only [dfsFFAcc]
          rw [if_pos hb, if_pos hc]
        have hd1 : rowsOf g1 = rowsOf g ∧ colsOf g1 = colsOf g := by
          rw [hg1]
          exact ⟨rowsOf_setCell g x y rc, colsOf_setCell g x y rc⟩
        have hgetD : ∀ (gb : Grid) (u v : Int),
            rowsOf ((dfsFF tc rc f gb u v).getD gb) = rowsOf gb ∧
            colsOf ((dfsFF tc rc f gb u v).getD gb) = colsOf gb := by
          intro gb u v
          cases hh : dfsFF tc rc f gb u v with
          | none => simp
          | some gg => simpa using dfsFF_dims tc rc f gb u v gg hh
        have hd2 : rowsOf g2 = rowsOf g ∧ colsOf g2 = colsOf g := by
          rw [hg2]
          exact ⟨by rw [(hgetD g1 (x - 1) y).1, hd1.1],
            by rw [(hgetD g1 (x - 1) y).2, hd1.2]⟩
        have hd3 : rowsOf g3 = rowsOf g ∧ colsOf g3 = colsOf g := by
          rw [hg3]
          exact ⟨by rw [(hgetD g2 (x + 1) y).1, hd2.1],
            by rw [(hgetD g2 (x + 1) y).2, hd2.2]⟩
        have hd4 : rowsOf g4 = rowsOf g ∧ colsOf g4 = colsOf g := by
          rw [hg4]
          exact ⟨by rw [(hgetD g3 x (y - 1)).1, hd3.1],
            by rw [(hgetD g3 x (y - 1)).2, hd3.2]⟩
        rw [hrw] at ha
        rcases List.mem_cons.mp ha with rfl | ha'
        · exact hb
        rcases List.mem_cons.mp ha' with rfl | ha''
        · exact hb
        rcases List.mem_append.mp ha'' with h123 | h4'
        rotate_left
        · exact (inWin_congr g g4 hd4.1 hd4.2 a).mp (ih g4 x (y + 1) a h4')
        rcases List.mem_append.mp h123 with h12 | h3'
        rotate_left
        · exact (inWin_congr g g3 hd3.1 hd3.2 a).mp (ih g3 x (y - 1) a h3')
        rcases List.mem_append.mp h12 with h1' | h2'
        · exact (inWin_congr g g1 hd1.1 hd1.2 a).mp (ih g1 (x - 1) y a h1')
        · exact (inWin_congr g g2 hd2.1 hd2.2 a).mp (ih g2 (x + 1) y a h2')
      · have hrw : dfsFFAcc tc rc (f + 1) g x y = [(x, y)] := by
          simp only [dfsFFAcc]
          rw [if_pos hb, if_neg hc]
        rw [hrw] at ha
        rcases List.mem_singleton.mp ha with rfl
        exact hb
    · have hrw : dfsFFAcc tc rc (f + 1) g x y = [] := by
        simp only [dfsFFAcc]
        rw [if_neg hb]
      rw [hrw] at ha
      exact absurd ha (List.not_mem_nil a)

/-- C3 counterexample: with the out-of-bounds start coordinate (5, 5) on a
1×1 grid, `fill`'s guard step attempts the read `matrix[5][5]` — an access
at a coordinate outside `[0, rows) × [0, cols)` made with no preceding
bounds check — and the run faults (`IndexError`, modelled as `none`)
instead of being prevented by a check. -/
theorem claim_C3_counterexample :
    fillFFAcc [['X']] 5 5 'X' 'Y' = [(5, 5)] ∧
    ¬ inWin [['X']] ((5 : Int), (5 : Int)) ∧
    fillFF [['X']] 5 5 'X' 'Y' = none := by decide

/-- Every cell access of the flood fill except the initial unguarded
start-cell guard read is behind an explicit bounds check; when the start
coordinate is in bounds, every access of the fill is in the window. -/
theorem fillFFAcc_inWin (g : Grid) (sx sy : Int) (tc rc : Char)
    (hwin : inWin g (sx, sy)) :
    ∀ a ∈ fillFFAcc g sx sy tc rc, inWin g a := by
  intro a ha
  unfold fillFFAcc at ha
  rcases List.mem_cons.mp ha with rfl | ha'
  · exact hwin
  · cases hpy : pyIdx2 g sx sy with
    | none =>
      rw [hpy] at ha'
      exact absurd ha' (List.not_mem_nil a)
    | some v =>
      rw [hpy] at ha'
      have ha'' : a ∈ if v = rc then ([] : List (Int × Int))
          else dfsFFAcc tc rc (rowsOf g * colsOf g + 2) g sx sy := ha'
      by_cases hvrc : v = rc
      · rw [if_pos hvrc] at ha''
        exact absurd ha'' (List.not_mem_nil a)
      · rw [if_neg hvrc] at ha''
        exact dfsFFAcc_inWin tc rc _ g sx sy a ha''

/-! ### Claim C10: the guard is load-bearing for termination -/

/-- On the 1×2 grid `[["A","A"]]` with target = replacement = 'A', the
unguarded recursive walk started at (0,0) never terminates: cells (0,0) and
(0,1) keep re-validating each other, so every finite recursion depth is
exhausted. -/
theorem dfsFF_div_aux :
    ∀ f : Nat, dfsFF 'A' 'A' f [['A','A']] 0 0 = none ∧
      dfsFF 'A' 'A' f [['A','A']] 0 1 = none := by
  intro f
  induction f with
  | zero => exact ⟨rfl, rfl⟩
  | succ n ih =>
    match n, ih with
    | 0, _ => exact ⟨by decide, by decide⟩
    | m + 1, ih =>
      obtain ⟨h00, h01⟩ := ih
      constructor
      · rw [dfsFF_succ, if_pos (by decide)]
        have hset : setCell [['A','A']] (0 : Int) (0 : Int) 'A' = [['A','A']] := by
          decide
        rw [hset]
        have hn1 : dfsFF 'A' 'A' (m + 1) [['A','A']] ((0 : Int) - 1) (0 : Int) =
            some [['A','A']] := by
          rw [dfsFF_succ, if_neg (by decide)]
        have hn2 : dfsFF 'A' 'A' (m + 1) [['A','A']] ((0 : Int) + 1) (0 : Int) =
            some [['A','A']] := by
          rw [dfsFF_succ, if_neg (by decide)]
        have hn3 : dfsFF 'A' 'A' (m + 1) [['A','A']] (0 : Int) ((0 : Int) - 1) =
            some [['A','A']] := by
          rw [dfsFF_succ, if_neg (by decide)]
        rw [hn1, Option.some_bind, hn2, Option.some_bind, hn3, Option.some_bind]
        have h01' : ((0 : Int) + 1) = 1 := by norm_num
        rw [h01']
        exact h01
      · rw [dfsFF_succ, if_pos (by decide)]
        have hset : setCell [['A','A']] (0 : Int) (1 : Int) 'A' = [['A','A']] := by
          decide
        rw [hset]
        have hn1 : dfsFF 'A' 'A' (m + 1) [['A','A']] ((0 : Int) - 1) (1 : Int) =
            some [['A','A']] := by
          rw [dfsFF_succ, if_neg (by decide)]
        have hn2 : dfsFF 'A' 'A' (m + 1) [['A','A']] ((0 : Int) + 1) (1 : Int) =
            some [['A','A']] := by
          rw [dfsFF_succ, if_neg (by decide)]
        rw [hn1, Option.some_bind, hn2, Option.some_bind]
        have h10 : ((1 : Int) - 1) = 0 := by norm_num
        rw [h10, h00]
        rfl

/-- The guarded `fill` is total on every rectangular grid and in-bounds
start coordinate. -/
theorem fillFF_total (g : Grid) (sx sy : Int) (tc rc : Char)
    (hrect : Rect g) (hwin : inWin g (sx, sy)) :
    (fillFF g sx sy tc rc).isSome := by
  have hv := pyIdx2_eq_cellM g sx sy hrect hwin
  by_cases hguard : cellM g sx sy = rc
  · rw [fillFF_guard g sx sy tc rc _ hv hguard]
    rfl
  · rw [fillFF_run g sx sy tc rc _ hv hguard]
    by_cases hstart : cellM g sx sy = tc
    · have hne : tc ≠ rc := fun h => hguard (by rw [hstart, h])
      obtain ⟨g', hg'⟩ := dfsFF_success tc rc hne (rowsOf g * colsOf g + 2)
        g sx sy hrect (by have := colorCount_le g tc; omega)
      rw [hg']
      rfl
    · have hfuel : rowsOf g * colsOf g + 2 = (rowsOf g * colsOf g + 1) + 1 := rfl
      rw [hfuel, dfsFF_succ, if_neg (fun hv' => hstart hv'.2.2.2.2)]
      rfl

/-- C10: the guarded `fill` terminates for every rectangular grid and
in-bounds start coordinate — including `target_color == replacement_color`,
where the guard returns before the recursive walk (second conjunct); without
the guard, that walk recurses forever on such an input, shown by the
unguarded recursion exhausting every finite depth (third conjunct).  The
guard is thus load-bearing for totality. -/
theorem claim_C10 :
    (∀ (g : Grid) (sx sy : Int) (tc rc : Char), Rect g → inWin g (sx, sy) →
      (fillFF g sx sy tc rc).isSome) ∧
    fillFF [['A','A']] 0 0 'A' 'A' = some [['A','A']] ∧
    (∀ f : Nat, dfsFF 'A' 'A' f [['A','A']] 0 0 = none) :=
  ⟨fun g sx sy tc rc hr hw => fillFF_total g sx sy tc rc hr hw,
    by decide,
    fun f => (dfsFF_div_aux f).1⟩

/-- C10 witness: totality applied to a concrete grid and start. -/
theorem claim_C10_witness : (fillFF [['B']] 0 0 'B' 'C').isSome :=
  claim_C10.1 [['B']] 0 0 'B' 'C' (by decide) (by decide)

/-! ### Claim C2: LIFO order of the frontier -/

/-- C2 counterexample: in the concrete run, state 3 — a child of the popped
node 2, pushed while node 1 was already on the frontier — is explored
*before* state 1, refuting the claim that pushed children are explored
after all nodes currently on the frontier.  The full exploration order is
0, 2, 3, 1. -/
theorem claim_C2_counterexample :
    dfsAExplored exC2 10 = [0, 2, 3, 1] ∧
    (dfsAExplored exC2 10).indexOf 3 < (dfsAExplored exC2 10).indexOf 1 := by
  decide

/-- C2 (amended): when a popped node's expansion children are pushed onto
the LIFO frontier, those children are explored *before* all nodes that were
already on the frontier: the next node popped is the most recently pushed
child. -/
theorem claim_C2 {σ α : Type} [DecidableEq σ] (p : GProblem σ α)
    (n : SNode σ α) (rest : List (SNode σ α)) (explored : List σ)
    (hmem : n.state ∉ explored) (hgoal : p.is_goal n.state = false)
    (hchild : expand p n ≠ []) :
    dfsAStep p (n :: rest) explored =
      StepRes.next ((expand p n).reverse ++ rest) (n.state :: explored) ∧
    ((expand p n).reverse ++ rest).head? = (expand p n).getLast? ∧
    ((expand p n).getLast?).isSome := by
  refine ⟨?_, ?_, ?_⟩
  · simp [dfsAStep, hmem, hgoal]
  · have hrev : (expand p n).reverse ≠ [] := by
      simpa using hchild
    obtain ⟨c, cs, hcs⟩ := List.exists_cons_of_ne_nil hrev
    rw [hcs, List.cons_append, List.head?_cons, ← List.head?_cons (l := cs), ← hcs,
      List.head?_reverse]
  · obtain ⟨c, cs, hcs⟩ := List.exists_cons_of_ne_nil hchild
    rw [hcs]
    simp [List.getLast?_cons]

/-- C2 witness: the amended theorem applied to the first iteration of the
concrete run. -/
theorem claim_C2_witness :
    dfsAStep exC2 [SNode.root 0] [] =
      StepRes.next ((expand exC2 (SNode.root 0)).reverse ++ [])
        ((SNode.root (0 : Nat) : SNode Nat Nat).state :: []) ∧
    ((expand exC2 (SNode.root 0)).reverse ++ []).head? =
      (expand exC2 (SNode.root 0)).getLast? ∧
    ((expand exC2 (SNode.root 0)).getLast?).isSome :=
  claim_C2 exC2 (SNode.root 0) [] [] (by decide) (by decide) (by decide)

/-! ### Claim C7: path validity of a returned result -/

theorem lastState_append_one {σ α : Type} (s0 : σ) (steps : List (α × σ))
    (a : α) (s : σ) : lastState s0 (steps ++ [(a, s)]) = s := by
  unfold lastState
  rw [List.getLast?_concat]

theorem lastState_cons {σ α : Type} (s0 s1 : σ) (a0 : α)
    (rest : List (α × σ)) :
    lastState s0 ((a0, s1) :: rest) = lastState s1 rest := by
  cases rest with
  | nil => rfl
  | cons r rs =>
    obtain ⟨z, hz⟩ := Option.isSome_iff_exists.mp
      (List.getLast?_isSome.mpr (List.cons_ne_nil r rs))
    unfold lastState
    rw [List.getLast?_cons_cons, hz]

theorem chainCost_cons {σ α : Type} (p : GProblem σ α) (s0 s1 : σ) (a0 : α)
    (rest : List (α × σ)) :
    ChainCost p s0 ((a0, s1) :: rest) =
      p.action_cost s0 a0 s1 + ChainCost p s1 rest := rfl

theorem chainOK_append_one {σ α : Type} (p : GProblem σ α) :
    ∀ (steps : List (α × σ)) (s0 : σ) (a : α) (s : σ),
      ChainOK p s0 steps → a ∈ p.actions (lastState s0 steps) →
      s = p.result (lastState s0 steps) a →
      ChainOK p s0 (steps ++ [(a, s)]) := by
  intro steps
  induction steps with
  | nil =>
    intro s0 a s _ ha hs
    exact ⟨ha, hs, trivial⟩
  | cons st rest ih =>
    intro s0 a s hok ha hs
    obtain ⟨a0, s1⟩ := st
    obtain ⟨h1, h2, h3⟩ := hok
    rw [lastState_cons] at ha hs
    exact ⟨h1, h2, ih s1 a s h3 ha hs⟩

theorem chainCost_append_one {σ α : Type} (p : GProblem σ α) :
    ∀ (steps : List (α × σ)) (s0 : σ) (a : α) (s : σ),
      ChainCost p s0 (steps ++ [(a, s)]) =
        ChainCost p s0 steps + p.action_cost (lastState s0 steps) a s := by
  intro steps
  induction steps with
  | nil =>
    intro s0 a s
    show p.action_cost s0 a s + 0 = 0 + p.action_cost s0 a s
    omega
  | cons st rest ih =>
    intro s0 a s
    obtain ⟨a0, s1⟩ := st
    rw [List.cons_append, chainCost_cons, chainCost_cons, ih s1 a s,
      lastState_cons]
    omega

theorem nodeOK_spec {σ α : Type} (p : GProblem σ α) :
    ∀ n : SNode σ α, NodeOK p n →
      ∃ steps : List (α × σ),
        pathStates n = p.initial :: steps.map Prod.snd ∧
        ChainOK p p.initial steps ∧
        n.path_cost = ChainCost p p.initial steps ∧
        n.state = lastState p.initial steps := by
  intro n
  induction n with
  | root s =>
    intro h
    have h' : s = p.initial := h
    subst h'
    exact ⟨[], by simp [pathStates], trivial, rfl, rfl⟩
  | child s parent a c ihp =>
    intro h
    obtain ⟨hp, ha, hs, hc⟩ :
        NodeOK p parent ∧ a ∈ p.actions parent.state ∧
          s = p.result parent.state a ∧
          c = parent.path_cost + p.action_cost parent.state a s := h
    obtain ⟨steps, h1, h2, h3, h4⟩ := ihp hp
    rw [h4] at ha hs hc
    refine ⟨steps ++ [(a, s)], ?_, ?_, ?_, ?_⟩
    · show pathStates parent ++ [s] = _
      rw [h1]
      simp [List.map_append]
    · exact chainOK_append_one p steps p.initial a s h2 ha hs
    · show c = _
      rw [chainCost_append_one p steps p.initial a s, hc, h3]
    · show s = _
      rw [lastState_append_one]

theorem expand_nodeOK {σ α : Type} (p : GProblem σ α) (n : SNode σ α)
    (hn : NodeOK p n) : ∀ c ∈ expand p n, NodeOK p c := by
  intro c hc
  obtain ⟨a, ha, rfl⟩ := List.mem_map.mp hc
  exact ⟨hn, ha, rfl, rfl⟩

theorem dfsALoop_sound {σ α : Type} [DecidableEq σ] (p : GProblem σ α) :
    ∀ (fuel : Nat) (frontier : List (SNode σ α)) (explored : List σ)
      (states : List σ) (cost : Int),
      (∀ n ∈ frontier, NodeOK p n) →
      (dfsALoop p fuel frontier explored).1 = some (some (states, cost)) →
      ∃ n : SNode σ α, NodeOK p n ∧ pathStates n = states ∧
        n.path_cost = cost ∧ p.is_goal n.state = true := by
  intro fuel
  induction fuel with
  | zero =>
    intro frontier explored states cost _ h
    exact absurd h (by simp [dfsALoop])
  | succ f ih =>
    intro frontier explored states cost hOK h
    cases frontier with
    | nil =>
      simp [dfsALoop, dfsAStep] at h
    | cons n rest =>
      by_cases hmem : n.state ∈ explored
      · have hstep : dfsAStep p (n :: rest) explored = .next rest explored := by
          simp [dfsAStep, hmem]
        rw [show dfsALoop p (f + 1) (n :: rest) explored =
            dfsALoop p f rest explored by simp [dfsALoop, hstep]] at h
        exact ih rest explored states cost
          (fun m hm => hOK m (List.mem_cons_of_mem _ hm)) h
      · by_cases hgoal : p.is_goal n.state
        · have hstep : dfsAStep p (n :: rest) explored =
              .halt (some (pathStates n, n.path_cost)) (n.state :: explored) := by
            simp [dfsAStep, hmem, hgoal]
          rw [show dfsALoop p (f + 1) (n :: rest) explored =
              (some (some (pathStates n, n.path_cost)), n.state :: explored)
            by simp [dfsALoop, hstep]] at h
          simp only [Option.some.injEq, Prod.mk.injEq] at h
          exact ⟨n, hOK n (List.mem_cons_self _ _), h.1, h.2, hgoal⟩
        · have hstep : dfsAStep p (n :: rest) explored =
              .next ((expand p n).reverse ++ rest) (n.state :: explored) := by
            simp [dfsAStep, hmem, hgoal]
          rw [show dfsALoop p (f + 1) (n :: rest) explored =
              dfsALoop p f ((expand p n).reverse ++ rest) (n.state :: explored)
            by simp [dfsALoop, hstep]] at h
          refine ih _ _ states cost ?_ h
          intro m hm
          rcases List.mem_append.mp hm with hm' | hm'
          · exact expand_nodeOK p n (hOK n (List.mem_cons_self _ _)) m
              (List.mem_reverse.mp hm')
          · exact hOK m (List.mem_cons_of_mem _ hm')

theorem getLast?_cons_map_snd {σ α : Type} (s0 : σ) :
    ∀ steps : List (α × σ),
      (s0 :: steps.map Prod.snd).getLast? = some (lastState s0 steps) := by
  intro steps
  induction steps using List.reverseRecOn with
  | nil => rfl
  | append_singleton l x _ =>
    obtain ⟨a, s⟩ := x
    rw [lastState_append_one]
    rw [List.map_append, ← List.cons_append]
    exact List.getLast?_concat _

/-- C7: whenever Strategy A returns a path and a cost, the path starts at
the initial state, ends in a goal state, each consecutive pair of states is
connected by a legal action whose `result` produces the next state, and the
cost is the sum of `action_cost` over those steps. -/
theorem claim_C7 {σ α : Type} [DecidableEq σ] (p : GProblem σ α) (fuel : Nat)
    (states : List σ) (cost : Int)
    (h : dfsA p fuel = some (some (states, cost))) :
    ∃ steps : List (α × σ),
      states = p.initial :: steps.map Prod.snd ∧
      ChainOK p p.initial steps ∧
      cost = ChainCost p p.initial steps ∧
      ∃ sk, states.getLast? = some sk ∧ p.is_goal sk = true := by
  obtain ⟨n, hOK, hps, hcost, hgoal⟩ :=
    dfsALoop_sound p fuel [SNode.root p.initial] [] states cost
      (by
        intro m hm
        rcases List.mem_singleton.mp hm with rfl
        exact rfl)
      h
  obtain ⟨steps, h1, h2, h3, h4⟩ := nodeOK_spec p n hOK
  have hs : states = p.initial :: steps.map Prod.snd := by rw [← hps, h1]
  refine ⟨steps, hs, h2, by rw [← hcost, h3], n.state, ?_, hgoal⟩
  rw [hs, getLast?_cons_map_snd, ← h4]

/-- C7 witness: the concrete two-state problem returns path `[0, 1]` with
cost 5, and the theorem applies to it. -/
theorem claim_C7_witness :
    ∃ steps : List (Nat × Nat),
      [0, 1] = exProblemA.initial :: steps.map Prod.snd ∧
      ChainOK exProblemA exProblemA.initial steps ∧
      (5 : Int) = ChainCost exProblemA exProblemA.initial steps ∧
      ∃ sk, ([0, 1] : List Nat).getLast? = some sk ∧
        exProblemA.is_goal sk = true :=
  claim_C7 exProblemA 10 [0, 1] 5 (by decide)

/-! ### Claim C9: unreachable goal yields the no-path sentinel -/

theorem filter_not_mem_insert {σ : Type} [DecidableEq σ] (U : Finset σ)
    (explored : List σ) (s0 : σ) (hU : s0 ∈ U) (hnm : s0 ∉ explored) :
    U.filter (fun s => s ∉ explored) =
      insert s0 (U.filter (fun s => s ∉ (s0 :: explored))) := by
  ext t
  simp only [Finset.mem_filter, Finset.mem_insert, List.mem_cons]
  constructor
  · rintro ⟨htU, hte⟩
    by_cases hts : t = s0
    · exact Or.inl hts
    · exact Or.inr ⟨htU, fun h => h.elim hts hte⟩
  · rintro (rfl | ⟨htU, hte⟩)
    · exact ⟨hU, hnm⟩
    · exact ⟨htU, fun h => hte (Or.inr h)⟩

theorem phiA_step {σ α : Type} [DecidableEq σ] (p : GProblem σ α)
    (U : Finset σ) (explored : List σ) (s0 : σ) (hU : s0 ∈ U)
    (hnm : s0 ∉ explored) :
    ∑ s ∈ U.filter (fun s => s ∉ explored), (p.actions s).length =
      (p.actions s0).length +
        ∑ s ∈ U.filter (fun s => s ∉ (s0 :: explored)), (p.actions s).length := by
  rw [filter_not_mem_insert U explored s0 hU hnm]
  exact Finset.sum_insert (by
    intro hcon
    exact (Finset.mem_filter.mp hcon).2 (List.mem_cons_self _ _))

theorem dfsALoop_nogoal {σ α : Type} [DecidableEq σ] (p : GProblem σ α)
    (U : Finset σ)
    (hclosed : ∀ s ∈ U, ∀ a ∈ p.actions s, p.result s a ∈ U)
    (hnogoal : ∀ s ∈ U, p.is_goal s = false) :
    ∀ (fuel : Nat) (frontier : List (SNode σ α)) (explored : List σ),
      (∀ n ∈ frontier, n.state ∈ U) →
      phiA p U frontier explored < fuel →
      (dfsALoop p fuel frontier explored).1 = some none := by
  intro fuel
  induction fuel with
  | zero => intro frontier explored _ hphi; omega
  | succ f ih =>
    intro frontier explored hU hphi
    cases frontier with
    | nil => simp [dfsALoop, dfsAStep]
    | cons n rest =>
      have hnU : n.state ∈ U := hU n (List.mem_cons_self _ _)
      unfold phiA at hphi
      simp only [List.length_cons] at hphi
      by_cases hmem : n.state ∈ explored
      · have hstep : dfsAStep p (n :: rest) explored = .next rest explored := by
          simp [dfsAStep, hmem]
        rw [show dfsALoop p (f + 1) (n :: rest) explored =
            dfsALoop p f rest explored by simp [dfsALoop, hstep]]
        refine ih rest explored (fun m hm => hU m (List.mem_cons_of_mem _ hm)) ?_
        unfold phiA
        omega
      · have hgoal : p.is_goal n.state = false := hnogoal _ hnU
        have hstep : dfsAStep p (n :: rest) explored =
            .next ((expand p n).reverse ++ rest) (n.state :: explored) := by
          simp [dfsAStep, hmem, hgoal]
        rw [show dfsALoop p (f + 1) (n :: rest) explored =
            dfsALoop p f ((expand p n).reverse ++ rest) (n.state :: explored)
          by simp [dfsALoop, hstep]]
        refine ih _ _ ?_ ?_
        · intro m hm
          rcases List.mem_append.mp hm with hm' | hm'
          · obtain ⟨a, ha, rfl⟩ := List.mem_map.mp (List.mem_reverse.mp hm')
            exact hclosed n.state hnU a ha
          · exact hU m (List.mem_cons_of_mem _ hm')
        · unfold phiA
          rw [List.length_append, List.length_reverse]
          have hexp : (expand p n).length = (p.actions n.state).length := by
            unfold expand
            rw [List.length_map]
          have hsum := phiA_step p U explored n.state hnU hmem
          omega

/-- C9: for a problem whose finite, transition-closed state universe
contains the initial state and no goal state, the DFS terminates (any fuel
beyond the loop measure suffices) and returns the no-path sentinel
`(None, math.inf)`, modelled as `some none` — not an error. -/
theorem claim_C9 {σ α : Type} [DecidableEq σ] (p : GProblem σ α)
    (U : Finset σ) (hinit : p.initial ∈ U)
    (hclosed : ∀ s ∈ U, ∀ a ∈ p.actions s, p.result s a ∈ U)
    (hnogoal : ∀ s ∈ U, p.is_goal s = false)
    (fuel : Nat) (hfuel : phiA p U [SNode.root p.initial] [] < fuel) :
    dfsA p fuel = some none := by
  unfold dfsA
  refine dfsALoop_nogoal p U hclosed hnogoal fuel [SNode.root p.initial] [] ?_ hfuel
  intro m hm
  rcases List.mem_singleton.mp hm with rfl
  exact hinit

/-- C9 witness: the concrete goal-free graph returns the sentinel. -/
theorem claim_C9_witness : dfsA exC2 100 = some none :=
  claim_C9 exC2 {0, 1, 2, 3} (by decide) (by decide) (by decide) 100 (by decide)

/-! ### Word search: actions, children and the prefix set -/

theorem mem_actionsW (board : Grid) (st : WState) (q : Int × Int) :
    q ∈ actionsW board st ↔
      (q.1 - st.1, q.2 - st.2.1) ∈ dirs8 ∧
        is_valid_move q.1 q.2 (rowsOf board) (colsOf board) st.2.2 := by
  unfold actionsW
  rw [List.mem_filterMap]
  constructor
  · rintro ⟨d, hd, hf⟩
    split at hf
    · rename_i hval
      simp only [Option.some.injEq] at hf
      subst hf
      constructor
      · show (st.1 + d.1 - st.1, st.2.1 + d.2 - st.2.1) ∈ dirs8
        have he : (st.1 + d.1 - st.1, st.2.1 + d.2 - st.2.1) = d := by
          obtain ⟨d1, d2⟩ := d
          simp only [Prod.mk.injEq]
          constructor <;> ring
        rw [he]
        exact hd
      · exact hval
    · exact absurd hf (by simp)
  · rintro ⟨hd, hval⟩
    refine ⟨(q.1 - st.1, q.2 - st.2.1), hd, ?_⟩
    show (if is_valid_move (st.1 + (q.1 - st.1)) (st.2.1 + (q.2 - st.2.1))
        (rowsOf board) (colsOf board) st.2.2 then
        some (st.1 + (q.1 - st.1), st.2.1 + (q.2 - st.2.1)) else none) = some q
    have e1 : st.1 + (q.1 - st.1) = q.1 := by ring
    have e2 : st.2.1 + (q.2 - st.2.1) = q.2 := by ring
    rw [e1, e2, if_pos hval]

theorem WSInv_child (board : Grid) (st : WState) (hst : WSInv board st)
    (q : Int × Int) (hq : q ∈ actionsW board st) :
    WSInv board (resultW st q) := by
  obtain ⟨hne, hnd, hwin, hch, hlast⟩ := hst
  obtain ⟨hd, hv1, hv2, hv3, hv4, hv5⟩ := (mem_actionsW board st q).mp hq
  refine ⟨?_, ?_, ?_, ?_, ?_⟩
  · show st.2.2 ++ [(q.1, q.2)] ≠ []
    simp
  · show (st.2.2 ++ [(q.1, q.2)]).Nodup
    rw [List.nodup_append]
    refine ⟨hnd, List.nodup_singleton _, ?_⟩
    intro a ha hb
    rcases List.mem_singleton.mp hb with rfl
    exact hv5 ha
  · intro p hp
    rcases List.mem_append.mp hp with h | h
    · exact hwin p h
    · rcases List.mem_singleton.mp h with rfl
      exact ⟨hv1, hv2, hv3, hv4⟩
  · show List.Chain' _ (st.2.2 ++ [(q.1, q.2)])
    apply List.Chain'.append hch (List.chain'_singleton _)
    intro a ha b hb
    have ha' : a = (st.1, st.2.1) := by
      rw [hlast] at ha
      exact (Option.mem_some_iff.mp ha).symm
    have hb' : b = (q.1, q.2) := by
      simp only [List.head?_cons, Option.mem_some_iff] at hb
      exact hb.symm
    subst ha'
    subst hb'
    exact hd
  · show (st.2.2 ++ [(q.1, q.2)]).getLast? = some ((q.1, q.2) : Int × Int)
    exact List.getLast?_concat _

theorem mem_buildPrefixSet (words : List (List Char)) (w pre : List Char)
    (hw : w ∈ words) (hne : pre ≠ []) (hp : pre <+: w) :
    pre ∈ buildPrefixSet words := by
  unfold buildPrefixSet
  rw [List.mem_flatten]
  refine ⟨(List.range w.length).map (fun i => w.take (i + 1)),
    List.mem_map.mpr ⟨w, hw, rfl⟩, ?_⟩
  rw [List.mem_map]
  have h1 : 1 ≤ pre.length := List.length_pos.mpr hne
  have h2 : pre.length ≤ w.length := hp.length_le
  refine ⟨pre.length - 1, List.mem_range.mpr (by omega), ?_⟩
  have h3 : pre.length - 1 + 1 = pre.length := by omega
  rw [h3]
  exact (List.prefix_iff_eq_take.mp hp).symm

/-! ### Word search: the loop and its measure -/

theorem fwfLoop_cons (board : Grid) (dict pset : List (List Char)) (fuel : Nat)
    (st : WState) (stack : List WState) (found : List (List Char)) :
    fwfLoop board dict pset (fuel + 1) (st :: stack) found =
      (if wordOf board st.2.2 ∈ pset then
        fwfLoop board dict pset fuel
          (((actionsW board st).map (resultW st)).reverse ++ stack)
          (if wordOf board st.2.2 ∈ dict then
            found.insert (wordOf board st.2.2) else found)
      else
        fwfLoop board dict pset fuel stack
          (if wordOf board st.2.2 ∈ dict then
            found.insert (wordOf board st.2.2) else found)) := by
  simp only [fwfLoop]

theorem fwfLoop_mono (board : Grid) (dict pset : List (List Char)) :
    ∀ (fuel : Nat) (stack : List WState) (found : List (List Char))
      (w : List Char),
      w ∈ found → w ∈ fwfLoop board dict pset fuel stack found := by
  intro fuel
  induction fuel with
  | zero => intro stack found w hw; exact hw
  | succ f ih =>
    intro stack found w hw
    cases stack with
    | nil => exact hw
    | cons st rest =>
      rw [fwfLoop_cons]
      have hw' : w ∈ (if wordOf board st.2.2 ∈ dict then
          found.insert (wordOf board st.2.2) else found) := by
        split
        · exact List.mem_insert_iff.mpr (Or.inr hw)
        · exact hw
      split
      · exact ih _ _ w hw'
      · exact ih _ _ w hw'

theorem TW_pos : ∀ k, 1 ≤ TW k := by
  intro k
  cases k with
  | zero => exact le_refl 1
  | succ n =>
    show 1 ≤ 1 + 8 * TW n
    omega

theorem sum_map_const_of_eq {α : Type} (f : α → Nat) (v : Nat) :
    ∀ L : List α, (∀ x ∈ L, f x = v) → (L.map f).sum = L.length * v := by
  intro L
  induction L with
  | nil => intro _; simp
  | cons x xs ih =>
    intro h
    simp only [List.map_cons, List.sum_cons, List.length_cons]
    rw [h x (List.mem_cons_self _ _),
      ih (fun y hy => h y (List.mem_cons_of_mem _ hy))]
    ring

theorem le_sum_map_of_mem {α : Type} (f : α → Nat) :
    ∀ (L : List α) (x : α), x ∈ L → f x ≤ (L.map f).sum := by
  intro L
  induction L with
  | nil => intro x hx; simp at hx
  | cons y ys ih =>
    intro x hx
    simp only [List.map_cons, List.sum_cons]
    rcases List.mem_cons.mp hx with rfl | hx'
    · exact Nat.le_add_right _ _
    · have := ih x hx'
      omega

theorem measureW_cons (N : Nat) (st : WState) (stack : List WState) :
    measureW N (st :: stack) =
      TW (N + 1 - st.2.2.length) + measureW N stack := by
  simp [measureW]

theorem measureW_append (N : Nat) (s1 s2 : List WState) :
    measureW N (s1 ++ s2) = measureW N s1 + measureW N s2 := by
  simp [measureW]

theorem measureW_reverse (N : Nat) (s : List WState) :
    measureW N s.reverse = measureW N s := by
  simp [measureW, List.sum_reverse]

theorem measureW_step (board : Grid) (N : Nat) (st : WState)
    (stack : List WState) (hlen : st.2.2.length ≤ N) :
    measureW N ((((actionsW board st).map (resultW st)).reverse ++ stack)) + 1 ≤
      TW (N + 1 - st.2.2.length) + measureW N stack := by
  rw [measureW_append, measureW_reverse]
  have hmap : ∀ c ∈ (actionsW board st).map (resultW st),
      TW (N + 1 - c.2.2.length) = TW (N - st.2.2.length) := by
    intro c hc
    obtain ⟨q, hq, rfl⟩ := List.mem_map.mp hc
    show TW (N + 1 - (st.2.2 ++ [(q.1, q.2)]).length) = TW (N - st.2.2.length)
    rw [List.length_append]
    congr 1
    simp only [List.length_singleton]
    omega
  have hsum : measureW N ((actionsW board st).map (resultW st)) =
      ((actionsW board st).map (resultW st)).length * TW (N - st.2.2.length) := by
    unfold measureW
    exact sum_map_const_of_eq _ _ _ hmap
  have hcnt : ((actionsW board st).map (resultW st)).length ≤ 8 := by
    rw [List.length_map]
    calc (actionsW board st).length ≤ dirs8.length :=
          List.length_filterMap_le _ _
      _ = 8 := rfl
  have hT : TW (N + 1 - st.2.2.length) = 1 + 8 * TW (N - st.2.2.length) := by
    have he : N + 1 - st.2.2.length = (N - st.2.2.length) + 1 := by omega
    rw [he]
    rfl
  have hsum8 : measureW N ((actionsW board st).map (resultW st)) ≤
      8 * TW (N - st.2.2.length) := by
    rw [hsum]
    exact Nat.mul_le_mul_right _ hcnt
  omega

theorem fwfLoop_sound (board : Grid) (dict pset : List (List Char))
    (sx sy : Int) :
    ∀ (fuel : Nat) (stack : List WState) (found : List (List Char)),
      (∀ st ∈ stack, WSInv board st ∧ st.2.2.head? = some (sx, sy)) →
      (∀ w ∈ found, w ∈ dict ∧ ∃ l, TraceablePath board l ∧
        l.head? = some (sx, sy) ∧ wordOf board l = w) →
      ∀ w ∈ fwfLoop board dict pset fuel stack found,
        w ∈ dict ∧ ∃ l, TraceablePath board l ∧
          l.head? = some (sx, sy) ∧ wordOf board l = w := by
  intro fuel
  induction fuel with
  | zero => intro stack found _ hfound w hw; exact hfound w hw
  | succ f ih =>
    intro stack found hstack hfound w hw
    cases stack with
    | nil => exact hfound w hw
    | cons st rest =>
      rw [fwfLoop_cons] at hw
      obtain ⟨⟨hne, hnd, hwin, hch, hlast⟩, hhead⟩ :=
        hstack st (List.mem_cons_self _ _)
      have hfound' : ∀ w' ∈ (if wordOf board st.2.2 ∈ dict then
          found.insert (wordOf board st.2.2) else found),
          w' ∈ dict ∧ ∃ l, TraceablePath board l ∧
            l.head? = some (sx, sy) ∧ wordOf board l = w' := by
        intro w' hw'
        split at hw'
        · rename_i hdict
          rcases List.mem_insert_iff.mp hw' with rfl | hw''
          · exact ⟨hdict, st.2.2, ⟨hne, hnd, hwin, hch⟩, hhead, rfl⟩
          · exact hfound w' hw''
        · exact hfound w' hw'
      split at hw
      · refine ih _ _ ?_ hfound' w hw
        intro st' hst'
        rcases List.mem_append.mp hst' with h | h
        · obtain ⟨q, hq, rfl⟩ := List.mem_map.mp (List.mem_reverse.mp h)
          refine ⟨WSInv_child board st ⟨hne, hnd, hwin, hch, hlast⟩ q hq, ?_⟩
          show (st.2.2 ++ [(q.1, q.2)]).head? = some (sx, sy)
          obtain ⟨c, t, hct⟩ := List.exists_cons_of_ne_nil hne
          rw [hct]
          rw [hct] at hhead
          simpa using hhead
        · exact hstack st' (List.mem_cons_of_mem _ h)
      · exact ih _ _ (fun st' h => hstack st' (List.mem_cons_of_mem _ h))
          hfound' w hw

theorem fwfLoop_complete (board : Grid) (dict : List (List Char)) :
    ∀ (fuel : Nat) (stack : List WState) (found : List (List Char)),
      (∀ st ∈ stack, WSInv board st) →
      measureW (rowsOf board * colsOf board) stack ≤ fuel →
      ∀ st ∈ stack, ∀ full : List (Int × Int),
        st.2.2 <+: full → TraceablePath board full →
        wordOf board full ∈ dict →
        wordOf board full ∈
          fwfLoop board dict (buildPrefixSet dict) fuel stack found := by
  intro fuel
  induction fuel with
  | zero =>
    intro stack found _ hmeas st hst full _ _ _
    exfalso
    have h1 : TW (rowsOf board * colsOf board + 1 - st.2.2.length) ≤
        measureW (rowsOf board * colsOf board) stack := by
      unfold measureW
      exact le_sum_map_of_mem
        (fun s => TW (rowsOf board * colsOf board + 1 - s.2.2.length))
        stack st hst
    have h2 := TW_pos (rowsOf board * colsOf board + 1 - st.2.2.length)
    omega
  | succ f ih =>
    intro stack found hstack hmeas st hst full hpre htr hdict
    cases stack with
    | nil => exact absurd hst (List.not_mem_nil st)
    | cons st₀ rest =>
      rw [fwfLoop_cons]
      obtain ⟨hne₀, hnd₀, hwin₀, hch₀, hlast₀⟩ :=
        hstack st₀ (List.mem_cons_self _ _)
      have hlen₀ : st₀.2.2.length ≤ rowsOf board * colsOf board :=
        length_le_of_nodup_inWin board st₀.2.2 hnd₀ hwin₀
      rw [measureW_cons] at hmeas
      rcases List.mem_cons.mp hst with rfl | hst'
      · obtain ⟨t, ht⟩ := hpre
        cases t with
        | nil =>
          rw [List.append_nil] at ht
          subst ht
          have hfound' : wordOf board st.2.2 ∈
              found.insert (wordOf board st.2.2) :=
            List.mem_insert_iff.mpr (Or.inl rfl)
          rw [if_pos hdict]
          split
          · exact fwfLoop_mono board dict _ f _ _ _ hfound'
          · exact fwfLoop_mono board dict _ f _ _ _ hfound'
        | cons q t' =>
          have hwpre : wordOf board st.2.2 <+: wordOf board full := by
            rw [← ht]
            unfold wordOf
            rw [List.map_append]
            exact List.prefix_append _ _
          have hwne : wordOf board st.2.2 ≠ [] := by
            unfold wordOf
            simpa using hne₀
          have hpset : wordOf board st.2.2 ∈ buildPrefixSet dict :=
            mem_buildPrefixSet dict (wordOf board full) _ hdict hwne hwpre
          rw [if_pos hpset]
          obtain ⟨htne, htnd, htwin, htch⟩ := htr
          have hqmem : q ∈ actionsW board st := by
            rw [mem_actionsW]
            constructor
            · rw [← ht] at htch
              obtain ⟨_, _, hb⟩ := List.chain'_append.mp htch
              have hR := hb (st.1, st.2.1) hlast₀ q rfl
              exact hR
            · have hqin : inWin board q := htwin q (by
                rw [← ht]
                exact List.mem_append.mpr (Or.inr (List.mem_cons_self _ _)))
              have hqnot : q ∉ st.2.2 := by
                intro hmem
                rw [← ht] at htnd
                exact (List.nodup_append.mp htnd).2.2 hmem
                  (List.mem_cons_self _ _)
              exact ⟨hqin.1, hqin.2.1, hqin.2.2.1, hqin.2.2.2, hqnot⟩
          have hchild : resultW st q ∈
              ((actionsW board st).map (resultW st)).reverse ++ rest :=
            List.mem_append.mpr (Or.inl (List.mem_reverse.mpr
              (List.mem_map.mpr ⟨q, hqmem, rfl⟩)))
          refine ih (((actionsW board st).map (resultW st)).reverse ++ rest)
            _ ?_ ?_ (resultW st q) hchild full ?_ ⟨htne, htnd, htwin, htch⟩
            hdict
          · intro st' hs'
            rcases List.mem_append.mp hs' with h | h
            · obtain ⟨q', hq', rfl⟩ := List.mem_map.mp (List.mem_reverse.mp h)
              exact WSInv_child board st ⟨hne₀, hnd₀, hwin₀, hch₀, hlast₀⟩
                q' hq'
            · exact hstack st' (List.mem_cons_of_mem _ h)
          · have hstep := measureW_step board (rowsOf board * colsOf board)
              st rest hlen₀
            omega
          · show (st.2.2 ++ [(q.1, q.2)]) <+: full
            rw [← ht]
            have he : ((q.1, q.2) : Int × Int) = q := rfl
            rw [he]
            exact ⟨t', by rw [List.append_assoc, List.singleton_append]⟩
      · split
        · refine ih _ _ ?_ ?_ st (List.mem_append.mpr (Or.inr hst')) full
            hpre htr hdict
          · intro st' h
            rcases List.mem_append.mp h with h | h
            · obtain ⟨q', hq', rfl⟩ := List.mem_map.mp (List.mem_reverse.mp h)
              exact WSInv_child board st₀ ⟨hne₀, hnd₀, hwin₀, hch₀, hlast₀⟩
                q' hq'
            · exact hstack st' (List.mem_cons_of_mem _ h)
          · have hstep := measureW_step board (rowsOf board * colsOf board)
              st₀ rest hlen₀
            omega
        · refine ih rest _
            (fun st' h => hstack st' (List.mem_cons_of_mem _ h)) ?_
            st hst' full hpre htr hdict
          have := TW_pos
            (rowsOf board * colsOf board + 1 - st₀.2.2.length)
          omega

/-! ### Word search: per-start specification and the collected result -/

theorem findWordsFrom_spec (board : Grid) (dict : List (List Char))
    (x y : Int) (hwin : inWin board (x, y)) (w : List Char) :
    w ∈ findWordsFrom board dict x y ↔
      w ∈ dict ∧ ∃ l, TraceablePath board l ∧
        l.head? = some (x, y) ∧ wordOf board l = w := by
  unfold findWordsFrom
  have hinv : ∀ st ∈ ([(x, y, [(x, y)])] : List WState), WSInv board st := by
    intro st hst
    rcases List.mem_singleton.mp hst with rfl
    refine ⟨?_, List.nodup_singleton _, ?_, List.chain'_singleton _, rfl⟩
    · simp
    · intro p hp
      rcases List.mem_singleton.mp hp with rfl
      exact hwin
  constructor
  · intro hw
    refine fwfLoop_sound board dict (buildPrefixSet dict) x y
      (TW (rowsOf board * colsOf board)) [(x, y, [(x, y)])] [] ?_ ?_ w hw
    · intro st hst
      exact ⟨hinv st hst, by rcases List.mem_singleton.mp hst with rfl; rfl⟩
    · intro w' hw'
      exact absurd hw' (List.not_mem_nil w')
  · rintro ⟨hdict, l, htr, hhead, rfl⟩
    obtain ⟨c, t, rfl⟩ := List.exists_cons_of_ne_nil htr.1
    have hc : c = (x, y) := by simpa using hhead
    subst hc
    refine fwfLoop_complete board dict (TW (rowsOf board * colsOf board))
      [(x, y, [(x, y)])] [] hinv ?_ (x, y, [(x, y)])
      (List.mem_singleton_self _) ((x, y) :: t) ⟨t, rfl⟩ htr hdict
    simp [measureW]

theorem mem_foldl_insert (L : List (List Char)) :
    ∀ (acc : List (List Char)) (w : List Char),
      w ∈ L.foldl (fun a w' => a.insert w') acc ↔ w ∈ acc ∨ w ∈ L := by
  induction L with
  | nil => intro acc w; simp
  | cons x xs ih =>
    intro acc w
    simp only [List.foldl_cons]
    rw [ih, List.mem_insert_iff, List.mem_cons]
    tauto

theorem nodup_foldl_insert (L : List (List Char)) :
    ∀ acc : List (List Char), acc.Nodup →
      (L.foldl (fun a w' => a.insert w') acc).Nodup := by
  induction L with
  | nil => intro acc h; exact h
  | cons x xs ih =>
    intro acc h
    refine ih (List.insert x acc) ?_
    by_cases hx : x ∈ acc
    · rw [List.insert_of_mem hx]
      exact h
    · rw [List.insert_of_not_mem hx]
      exact List.nodup_cons.mpr ⟨hx, h⟩

theorem mem_rowMajor (g : Grid) (p : Int × Int) :
    p ∈ rowMajor g ↔ inWin g p := by
  constructor
  · intro hp
    obtain ⟨row, hrow, hprow⟩ := List.mem_flatten.mp hp
    obtain ⟨r, hr, rfl⟩ := List.mem_map.mp hrow
    obtain ⟨c, hc, rfl⟩ := List.mem_map.mp hprow
    rw [List.mem_range] at hr hc
    exact ⟨by simp, by simpa using hr, by simp, by simpa using hc⟩
  · intro hw
    obtain ⟨a, b⟩ := p
    obtain ⟨h1, h2, h3, h4⟩ :
        0 ≤ a ∧ a < (rowsOf g : Int) ∧ 0 ≤ b ∧ b < (colsOf g : Int) := hw
    refine List.mem_flatten.mpr
      ⟨(List.range (colsOf g)).map
        (fun (c : Nat) => ((a.toNat : Int), (c : Int))), ?_, ?_⟩
    · exact List.mem_map.mpr ⟨a.toNat, List.mem_range.mpr (by omega), rfl⟩
    · refine List.mem_map.mpr ⟨b.toNat, List.mem_range.mpr (by omega), ?_⟩
      simp only [Prod.mk.injEq]
      constructor <;> omega

theorem mem_findAllWords_aux (board : Grid) (dict : List (List Char)) :
    ∀ (ps : List (Int × Int)) (acc : List (List Char)) (w : List Char),
      w ∈ ps.foldl (fun acc p => (findWordsFrom board dict p.1 p.2).foldl
        (fun a w' => a.insert w') acc) acc ↔
      w ∈ acc ∨ ∃ p ∈ ps, w ∈ findWordsFrom board dict p.1 p.2 := by
  intro ps
  induction ps with
  | nil => intro acc w; simp
  | cons p ps ih =>
    intro acc w
    simp only [List.foldl_cons]
    rw [ih, mem_foldl_insert, List.exists_mem_cons_iff]
    tauto

theorem nodup_findAllWords_aux (board : Grid) (dict : List (List Char)) :
    ∀ (ps : List (Int × Int)) (acc : List (List Char)), acc.Nodup →
      (ps.foldl (fun acc p => (findWordsFrom board dict p.1 p.2).foldl
        (fun a w' => a.insert w') acc) acc).Nodup := by
  intro ps
  induction ps with
  | nil => intro acc h; exact h
  | cons p ps ih =>
    intro acc h
    simp only [List.foldl_cons]
    exact ih _ (nodup_foldl_insert _ acc h)

/-- C5: for every rectangular letter grid and finite dictionary, the word
search (Strategy D) returns exactly the dictionary words traceable as a
contiguous, non-self-intersecting 8-directional path of letters in the grid —
every such word is in the result, nothing else is, and the result has no
duplicates. -/
theorem claim_C5 (board : Grid) (dict : List (List Char))
    (hrect : Rect board) :
    (∀ w, w ∈ findAllWords board dict ↔ w ∈ dict ∧ Traceable board w) ∧
    (findAllWords board dict).Nodup := by
  constructor
  · intro w
    unfold findAllWords
    rw [mem_findAllWords_aux]
    simp only [List.not_mem_nil, false_or]
    constructor
    · rintro ⟨p, hp, hw⟩
      have hwin : inWin board p := (mem_rowMajor board p).mp hp
      obtain ⟨hdict, l, htr, _, hword⟩ :=
        (findWordsFrom_spec board dict p.1 p.2 hwin w).mp hw
      exact ⟨hdict, l, htr, hword⟩
    · rintro ⟨hdict, l, htr, hword⟩
      obtain ⟨c, t, rfl⟩ := List.exists_cons_of_ne_nil htr.1
      have hcwin : inWin board c := htr.2.2.1 c (List.mem_cons_self _ _)
      refine ⟨c, (mem_rowMajor board c).mpr hcwin, ?_⟩
      exact (findWordsFrom_spec board dict c.1 c.2 hcwin w).mpr
        ⟨hdict, c :: t, htr, rfl, hword⟩
  · unfold findAllWords
    exact nodup_findAllWords_aux board dict (rowMajor board) [] List.nodup_nil

/-- C5 witness: the theorem applied to the concrete board
`[["A","B"],["C","D"]]` and dictionary `[["A","B"],["X"]]`. -/
theorem claim_C5_witness :
    (∀ w, w ∈ findAllWords [['A','B'],['C','D']] [['A','B'],['X']] ↔
      w ∈ ([['A','B'],['X']] : List (List Char)) ∧
        Traceable [['A','B'],['C','D']] w) ∧
    (findAllWords [['A','B'],['C','D']] [['A','B'],['X']]).Nodup :=
  claim_C5 [['A','B'],['C','D']] [['A','B'],['X']] (by decide)

/-! ### Claim C3: bounds safety of all three grid strategies -/

theorem actionsBAcc_inWin (m : Grid) (s : Int × Int) (hs : inWin m s) :
    ∀ a ∈ actionsBAcc m s, inWin m a := by
  intro a ha
  unfold actionsBAcc at ha
  rw [List.mem_flatMap] at ha
  obtain ⟨d, _, hd⟩ := ha
  split at hd
  · rename_i hcond
    rcases List.mem_cons.mp hd with rfl | hd'
    · exact ⟨hcond.2.1, hcond.2.2.1, hcond.2.2.2.1, hcond.2.2.2.2⟩
    · rcases List.mem_singleton.mp hd' with rfl
      exact hs
  · exact absurd hd (List.not_mem_nil a)

theorem recDFSBAcc_succ (m : Grid) (f : Nat) (visited : List (Int × Int))
    (s : Int × Int) :
    recDFSBAcc m (f + 1) visited s =
      actionsBAcc m s ++ ((actionsB m s).map (resultB s)).flatMap
        (fun c => if c ∉ s :: visited then recDFSBAcc m f (s :: visited) c
          else []) := by
  simp only [recDFSBAcc]

theorem recDFSBAcc_inWin (m : Grid) :
    ∀ (fuel : Nat) (visited : List (Int × Int)) (s : Int × Int),
      inWin m s → ∀ a ∈ recDFSBAcc m fuel visited s, inWin m a := by
  intro fuel
  induction fuel with
  | zero => intro visited s _ a ha; exact absurd ha (List.not_mem_nil a)
  | succ f ih =>
    intro visited s hs a ha
    rw [recDFSBAcc_succ] at ha
    rcases List.mem_append.mp ha with h | h
    · exact actionsBAcc_inWin m s hs a h
    · rw [List.mem_flatMap] at h
      obtain ⟨c, hc, hac⟩ := h
      have hcw : inWin m c := ((mem_children_iff m s c).mp hc).2.2.1
      split at hac
      · exact ih (s :: visited) c hcw a hac
      · exact absurd hac (List.not_mem_nil a)

theorem dfsBAcc_inWin (m : Grid) (sc : Char) :
    ∀ a ∈ dfsBAcc m sc, inWin m a := by
  intro a ha
  unfold dfsBAcc at ha
  rcases List.mem_append.mp ha with h | h
  · exact (mem_rowMajor m a).mp h
  · rw [List.mem_flatMap] at h
    obtain ⟨p, hp, hap⟩ := h
    have hpw : inWin m p := ((mem_findStartPositions m sc p).mp hp).1
    exact recDFSBAcc_inWin m (rowsOf m * colsOf m + 1) [] p hpw a hap

theorem fwfLoopAcc_cons (board : Grid) (pset : List (List Char)) (fuel : Nat)
    (st : WState) (stack : List WState) :
    fwfLoopAcc board pset (fuel + 1) (st :: stack) =
      st.2.2 ++
        (if wordOf board st.2.2 ∈ pset then
          fwfLoopAcc board pset fuel
            (((actionsW board st).map (resultW st)).reverse ++ stack)
        else fwfLoopAcc board pset fuel stack) := by
  simp only [fwfLoopAcc]

theorem fwfLoopAcc_inWin (board : Grid) (pset : List (List Char)) :
    ∀ (fuel : Nat) (stack : List WState),
      (∀ st ∈ stack, ∀ p ∈ st.2.2, inWin board p) →
      ∀ a ∈ fwfLoopAcc board pset fuel stack, inWin board a := by
  intro fuel
  induction fuel with
  | zero => intro stack _ a ha; exact absurd ha (List.not_mem_nil a)
  | succ f ih =>
    intro stack hstack a ha
    cases stack with
    | nil => exact absurd ha (List.not_mem_nil a)
    | cons st rest =>
      rw [fwfLoopAcc_cons] at ha
      rcases List.mem_append.mp ha with h | h
      · exact hstack st (List.mem_cons_self _ _) a h
      · split at h
        · refine ih _ ?_ a h
          intro st' hst' p hp
          rcases List.mem_append.mp hst' with h' | h'
          · obtain ⟨q, hq, rfl⟩ := List.mem_map.mp (List.mem_reverse.mp h')
            have hp' : p ∈ st.2.2 ++ [((q.1 : Int), (q.2 : Int))] := hp
            rcases List.mem_append.mp hp' with h'' | h''
            · exact hstack st (List.mem_cons_self _ _) p h''
            · rcases List.mem_singleton.mp h'' with rfl
              have hv := ((mem_actionsW board st q).mp hq).2
              exact ⟨hv.1, hv.2.1, hv.2.2.1, hv.2.2.2.1⟩
          · exact hstack st' (List.mem_cons_of_mem _ h') p hp
        · exact ih rest
            (fun st' h' => hstack st' (List.mem_cons_of_mem _ h')) a h

theorem findAllWordsAcc_inWin (board : Grid) (dict : List (List Char)) :
    ∀ a ∈ findAllWordsAcc board dict, inWin board a := by
  intro a ha
  unfold findAllWordsAcc at ha
  rw [List.mem_flatMap] at ha
  obtain ⟨p, hp, hap⟩ := ha
  have hpw : inWin board p := (mem_rowMajor board p).mp hp
  unfold findWordsFromAcc at hap
  refine fwfLoopAcc_inWin board (buildPrefixSet dict) _ _ ?_ a hap
  intro st hst q hq
  rcases List.mem_singleton.mp hst with rfl
  rcases List.mem_singleton.mp hq with rfl
  exact hpw

/-- C3 (amended): for the longest-ascending-path and word-search strategies,
every grid-cell access lies inside `[0, rows) × [0, cols)` for every input,
each behind the source's bounds checks (scanned start coordinates are in
range, neighbour reads sit behind explicit short-circuit bounds checks); for
the flood fill the single exception is the start-cell guard read
`matrix[start_x][start_y]`, performed with no bounds check — every other
flood-fill access is bounds-checked, and for an in-bounds start coordinate
every flood-fill access is in bounds. -/
theorem claim_C3 (m b fg : Grid) (sc : Char) (dict : List (List Char))
    (sx sy : Int) (tc rc : Char) (hwin : inWin fg (sx, sy)) :
    (∀ a ∈ dfsBAcc m sc, inWin m a) ∧
    (∀ a ∈ findAllWordsAcc b dict, inWin b a) ∧
    (∀ a ∈ fillFFAcc fg sx sy tc rc, inWin fg a) :=
  ⟨dfsBAcc_inWin m sc, findAllWordsAcc_inWin b dict,
    fillFFAcc_inWin fg sx sy tc rc hwin⟩

/-- C3 witness: the theorem at concrete inputs — the longest-path search and
the word search on `[["A","B"]]` and the in-bounds fill of `[["X"]]` from
(0, 0) — each instantiated at the recorded access (0, 0). -/
theorem claim_C3_witness :
    inWin [['A','B']] ((0 : Int), (0 : Int)) ∧
    inWin [['A','B']] ((0 : Int), (0 : Int)) ∧
    inWin [['X']] ((0 : Int), (0 : Int)) :=
  ⟨(claim_C3 [['A','B']] [['A','B']] [['X']] 'A' [['A']] 0 0 'X' 'Y'
      (by decide)).1 (0, 0) (by decide),
   (claim_C3 [['A','B']] [['A','B']] [['X']] 'A' [['A']] 0 0 'X' 'Y'
      (by decide)).2.1 (0, 0) (by decide),
   (claim_C3 [['A','B']] [['A','B']] [['X']] 'A' [['A']] 0 0 'X' 'Y'
      (by decide)).2.2 (0, 0) (by decide)⟩
